import Mathlib

/-!
# kafkactl, package `k8s`: dispatch of an invocation to a pod

A shallow embedding of `internal/k8s/k8s-operation.go`.

* Go `string` is `String`, Go slices are `List`, a Go `error` result is an
  `Option GoError` (`none` is `nil`).
* A method with a pointer receiver returns the receiver it leaves behind
  together with its result.
* Go `int` is taken to be 64 bits wide.
-/

namespace K8s

/-! ## Data model -/

/-- Go `error` values that occur in this package. -/
inductive GoError where
  /-- The value of `errors.Errorf(format, args...)`, identified by its message. -/
  | errorf (msg : String)
  /-- The error `json.Unmarshal` reports for the input text `input`. -/
  | unmarshal (input : String)
  /-- An error handed back by a collaborator (executor, context resolution). -/
  | foreign (msg : String)
  deriving DecidableEq, Repr

/-- Modelled from the spec: the types of the fields `RequestTimeout` and
`KafkaVersion` of `internal.ClientContext`, which are declared in another
package; section 3 describes them as "values with a canonical string
rendering; absent/default renders as empty string". -/
inductive Rendered where
  | absent
  | present (text : String)
  deriving DecidableEq, Repr

/-- The canonical string rendering (`.String()`) of a `Rendered` value. -/
def Rendered.String : Rendered → String
  | .absent => ""
  | .present text => text

/-- The `Kubernetes` part of `internal.ClientContext`. -/
structure K8sConfig where
  Enabled : Bool
  KubeContext : String
  Namespace : String
  deriving DecidableEq, Repr

/-- The `TLS` part of `internal.ClientContext`. -/
structure TLSConfig where
  Enabled : Bool
  CA : String
  Cert : String
  CertKey : String
  Insecure : Bool
  deriving DecidableEq, Repr

/-- The `Sasl` part of `internal.ClientContext`. -/
structure SaslConfig where
  Enabled : Bool
  Username : String
  Password : String
  Mechanism : String
  deriving DecidableEq, Repr

/-- The fields of `internal.ClientContext` that this file reads. -/
structure ClientContext where
  Name : String
  Brokers : List String
  TLS : TLSConfig
  Sasl : SaslConfig
  Kubernetes : K8sConfig
  RequestTimeout : Rendered
  ClientID : String
  KafkaVersion : Rendered
  AvroSchemaRegistry : String
  DefaultPartitioner : String
  deriving DecidableEq, Repr

/-- `type Operation struct { context internal.ClientContext }`. -/
structure Operation where
  context : ClientContext
  deriving DecidableEq, Repr

/-! ## Context validation -/

/-- `func (operation *Operation) initialize() error`: the receiver after the
call and the returned error. -/
def Operation.initialize (operation : Operation) : Operation × Option GoError :=
  if !operation.context.Kubernetes.Enabled then
    (operation, some (.errorf
      ("context is not a kubernetes context: " ++ operation.context.Name)))
  else if operation.context.Kubernetes.KubeContext == "" then
    (operation, some (.errorf
      ("context has no kubernetes context set: contexts." ++ operation.context.Name
        ++ ".kubernetes.kubeContext")))
  else if operation.context.Kubernetes.Namespace == "" then
    (operation, some (.errorf
      ("context has no kubernetes namespace set: contexts." ++ operation.context.Name
        ++ ".kubernetes.namespace")))
  else
    (operation, none)

/-! ## The command-tree view -/

/-- The view of a `pflag.Flag` that this file reads: `flag.Name`,
`flag.Changed`, `flag.Value.Type()` and `flag.Value.String()`. -/
structure Flag where
  Name : String
  Changed : Bool
  ValueType : String
  ValueString : String
  deriving DecidableEq, Repr

/-- The view of a `cobra.Command` that this file reads: the node's name, its
flag set as the list of flags in the order `VisitAll` enumerates them, and the
node's parent (the root is the node without a parent). A command tree has no
cycle, so every node reaches the root after finitely many parent links. -/
inductive Command where
  | root (name : String) (flags : List Flag)
  | sub (name : String) (flags : List Flag) (parent : Command)
  deriving DecidableEq, Repr

/-- `cmd.Name()`. -/
def Command.Name : Command → String
  | .root name _ => name
  | .sub name _ _ => name

/-- `cmd.Flags()`, in `VisitAll` order. -/
def Command.Flags : Command → List Flag
  | .root _ flags => flags
  | .sub _ flags _ => flags

/-- `cmd.Parent()`; `none` is the nil pointer. -/
def Command.Parent : Command → Option Command
  | .root _ _ => none
  | .sub _ _ parent => some parent

/-- `func parseCompleteCommand(cmd *cobra.Command, found []string) []string`. -/
def parseCompleteCommand : Command → List String → List String
  | .root _ _, found => found
  | .sub name _ parent, found => parseCompleteCommand parent ([name] ++ found)

/-- The nodes on the parent chain of a node, the root first and the node
itself last. -/
def Command.chain : Command → List Command
  | .root name flags => [.root name flags]
  | .sub name flags parent => parent.chain ++ [.sub name flags parent]

/-! ## Decoding a JSON text into a list of ints

`parseIntArray` calls `json.Unmarshal` of the Go standard library with a
target of type `*[]int`. The library accepts the text when it is the literal
`null` (the slice stays empty), or an array each of whose elements is `null`
(the element stays `0`) or an integer literal that fits the target type; it
reports an error for every other text. -/

/-- JSON insignificant whitespace. -/
def isJSONSpace (c : Char) : Bool :=
  c == ' ' || c == '\t' || c == '\r' || c == '\n'

/-- Drop leading JSON whitespace. -/
def skipSpace (cs : List Char) : List Char :=
  cs.dropWhile isJSONSpace

/-- The number written by a string of decimal digits. -/
def digitsValue (ds : List Char) : Nat :=
  ds.foldl (fun acc d => 10 * acc + (d.toNat - 48)) 0

/-- The least value of a Go `int` (64 bits). -/
def minInt : Int := -(2 ^ 63)

/-- The greatest value of a Go `int` (64 bits). -/
def maxInt : Int := 2 ^ 63 - 1

/-- Read a JSON integer literal (an optional minus sign, then `0` or a digit
string without a leading zero) from the front of the input; the result is its
value and the rest of the input. -/
def scanInt (cs : List Char) : Option (Int × List Char) :=
  let neg := cs.head? == some '-'
  let body := if neg then cs.tail else cs
  let ds := body.takeWhile Char.isDigit
  let rest := body.dropWhile Char.isDigit
  if ds.isEmpty then none
  else if ds.head? == some '0' && ds.length != 1 then none
  else some (if neg then -(digitsValue ds : Int) else (digitsValue ds : Int), rest)

/-- Read one array element for a target of type `int`: `null` leaves the
element `0`, an integer literal must fit into 64 bits. -/
def scanElem (cs : List Char) : Option (Int × List Char) :=
  match cs with
  | 'n' :: 'u' :: 'l' :: 'l' :: rest => some (0, rest)
  | _ =>
    match scanInt cs with
    | some (v, rest) => if minInt ≤ v ∧ v ≤ maxInt then some (v, rest) else none
    | none => none

/-- Read the elements of a non-empty array up to and including the closing
bracket; the input starts at the first element. Every element takes at least
one character, so the length of the input is enough fuel. -/
def scanElems : Nat → List Char → Option (List Int × List Char)
  | 0, _ => none
  | fuel + 1, cs =>
    match scanElem cs with
    | none => none
    | some (v, rest) =>
      match skipSpace rest with
      | ',' :: rest' =>
        match scanElems fuel (skipSpace rest') with
        | some (vs, rest'') => some (v :: vs, rest'')
        | none => none
      | ']' :: rest' => some ([v], rest')
      | _ => none

/-- The result of `json.Unmarshal(text, &ints)` for `ints` of type `[]int`:
`some ints` when the library returns a nil error, `none` when it returns an
error. -/
def decodeInts (cs : List Char) : Option (List Int) :=
  match skipSpace cs with
  | 'n' :: 'u' :: 'l' :: 'l' :: rest => if (skipSpace rest).isEmpty then some [] else none
  | '[' :: rest =>
    match skipSpace rest with
    | ']' :: rest' => if (skipSpace rest').isEmpty then some [] else none
    | body =>
      match scanElems body.length body with
      | some (vs, rest') => if (skipSpace rest').isEmpty then some vs else none
      | none => none
  | _ => none

/-! ## Flag reconstruction -/

/-- `func parseIntArray(array string) ([]int, error)`. When the error is not
nil the only caller does not read the slice, so the failing case carries the
error alone. -/
def parseIntArray (array : String) : Except GoError (List Int) :=
  match decodeInts array.data with
  | some ints => .ok ints
  | none => .error (.unmarshal array)

/-- `strconv.Itoa`. -/
def itoa (value : Int) : String := toString value

/-- The closure `parseFlags` hands to `VisitAll`, as a step on the two
variables it captures, `flags` and `err`. -/
def parseFlagsVisit (st : List String × Option GoError) (flag : Flag) :
    List String × Option GoError :=
  if st.2.isNone && flag.Changed then
    if flag.ValueType == "intSlice" || flag.ValueType == "int32Slice" then
      match parseIntArray flag.ValueString with
      | .ok intArray =>
        (intArray.foldl (fun flags value => flags ++ ["--" ++ flag.Name ++ "=" ++ itoa value])
          st.1, none)
      | .error err => (st.1, some err)
    else
      (st.1 ++ ["--" ++ flag.Name ++ "=" ++ flag.ValueString], st.2)
  else st

/-- The body of `parseFlags` on the flags that `VisitAll` enumerates: the
closure runs on each flag in turn, starting from `flags = nil`, `err = nil`. -/
def parseFlagSet (flags : List Flag) : List String × Option GoError :=
  flags.foldl parseFlagsVisit ([], none)

/-- `func parseFlags(cmd *cobra.Command) ([]string, error)`. -/
def parseFlags (cmd : Command) : List String × Option GoError :=
  parseFlagSet cmd.Flags

/-- The tokens the closure appends when it visits `flag` with no error
pending. -/
def flagTokens (flag : Flag) : List String :=
  (parseFlagsVisit ([], none) flag).1

/-- The error the closure sets when it visits `flag` with no error pending. -/
def flagError (flag : Flag) : Option GoError :=
  (parseFlagsVisit ([], none) flag).2

/-! ## Environment reconstruction -/

/-- `func appendStrings(env []string, key string, value []string) []string`. -/
def appendStrings (env : List String) (key : String) (value : List String) : List String :=
  env ++ [key ++ "=" ++ " ".intercalate value]

/-- The verb `%t` of `fmt.Sprintf`. -/
def fmtBool (value : Bool) : String := if value then "true" else "false"

/-- `func appendBool(env []string, key string, value bool) []string`. -/
def appendBool (env : List String) (key : String) (value : Bool) : List String :=
  if value then env ++ [key ++ "=" ++ fmtBool value] else env

/-- `func appendStringIfDefined(env []string, key string, value string) []string`. -/
def appendStringIfDefined (env : List String) (key : String) (value : String) : List String :=
  if value != "" then env ++ [key ++ "=" ++ value] else env

/-- `func parsePodEnvironment(context internal.ClientContext) []string`. -/
def parsePodEnvironment (context : ClientContext) : List String :=
  let env : List String := []
  let env := appendStrings env "BROKERS" context.Brokers
  let env := appendBool env "TLS_ENABLED" context.TLS.Enabled
  let env := appendStringIfDefined env "TLS_CA" context.TLS.CA
  let env := appendStringIfDefined env "TLS_CERT" context.TLS.Cert
  let env := appendStringIfDefined env "TLS_CERTKEY" context.TLS.CertKey
  let env := appendBool env "TLS_INSECURE" context.TLS.Insecure
  let env := appendBool env "SASL_ENABLED" context.Sasl.Enabled
  let env := appendStringIfDefined env "SASL_USERNAME" context.Sasl.Username
  let env := appendStringIfDefined env "SASL_PASSWORD" context.Sasl.Password
  let env := appendStringIfDefined env "SASL_MECHANISM" context.Sasl.Mechanism
  let env := appendStringIfDefined env "REQUESTTIMEOUT" context.RequestTimeout.String
  let env := appendStringIfDefined env "CLIENTID" context.ClientID
  let env := appendStringIfDefined env "KAFKAVERSION" context.KafkaVersion.String
  let env := appendStringIfDefined env "AVRO_SCHEMAREGISTRY" context.AvroSchemaRegistry
  let env := appendStringIfDefined env "DEFAULTPARTITIONER" context.DefaultPartitioner
  env

/-! ## Dispatch -/

/-- One call of the executor: `exec.Run(image, entryPoint, args, env)`. -/
structure Invocation where
  image : String
  entryPoint : String
  args : List String
  env : List String
  deriving DecidableEq, Repr

/-- Modelled from the spec: the executor (`newExecutor` and its `Run` method
are defined in another file of the package). Section 6 gives its contract as
`Run(image, entryPoint, args, env)` failing with an error on any remote
failure; here it is the function from the context the executor was built with
and the call to the error it returns. -/
abbrev Executor := ClientContext → Invocation → Option GoError

/-- What a dispatch entry point leaves behind: the receiver, the executor
calls it made in order, and the error it returns. -/
structure Outcome where
  operation : Operation
  calls : List Invocation
  err : Option GoError
  deriving DecidableEq, Repr

/-- `func (operation *Operation) Run(cmd *cobra.Command, args []string) error`. -/
def Operation.Run (exec : Executor) (operation : Operation) (cmd : Command)
    (args : List String) : Outcome :=
  match Operation.initialize operation with
  | (operation, some err) => ⟨operation, [], some err⟩
  | (operation, none) =>
    let kafkaCtlCommand := parseCompleteCommand cmd []
    match parseFlags cmd with
    | (_, some err) => ⟨operation, [], some err⟩
    | (kafkaCtlFlags, none) =>
      let podEnvironment := parsePodEnvironment operation.context
      let kafkaCtlCommand := kafkaCtlCommand ++ args
      let kafkaCtlCommand := kafkaCtlCommand ++ kafkaCtlFlags
      let call : Invocation := ⟨"scratch", "/kafkactl", kafkaCtlCommand, podEnvironment⟩
      ⟨operation, [call], exec operation.context call⟩

/-- Modelled from the spec: `internal.CreateClientContext`, which is defined in
another package. Section 4.3 has the entry points "resolve the active
context", and resolution can fail; here it is what the call returns, the
context value together with the error. -/
abbrev Resolution := ClientContext × Option GoError

/-- What the probing entry point leaves behind: the receiver, the executor
calls it made in order, the failures it reported to the user in order, and the
boolean it returns. -/
structure ProbeOutcome where
  operation : Operation
  calls : List Invocation
  reported : List GoError
  handled : Bool
  deriving DecidableEq, Repr

/-- Modelled from the spec: `output.Fail`, which is defined in another package.
Section 4.3 describes it as turning an error into a "user-visible failure
report"; here it adds the error to the failures reported so far. -/
def outputFail (reported : List GoError) (err : GoError) : List GoError :=
  reported ++ [err]

/-- `func (operation *Operation) Attach() error`, given what
`internal.CreateClientContext()` returns. -/
def Operation.Attach (exec : Executor) (resolved : Resolution) (operation : Operation) :
    Outcome :=
  let operation : Operation := { operation with context := resolved.1 }
  match resolved.2 with
  | some err => ⟨operation, [], some err⟩
  | none =>
    match Operation.initialize operation with
    | (operation, some err) => ⟨operation, [], some err⟩
    | (operation, none) =>
      let podEnvironment := parsePodEnvironment operation.context
      let call : Invocation := ⟨"ubuntu", "bash", [], podEnvironment⟩
      ⟨operation, [call], exec operation.context call⟩

/-- `func (operation *Operation) TryRun(cmd *cobra.Command, args []string) bool`,
given what `internal.CreateClientContext()` returns. -/
def Operation.TryRun (exec : Executor) (resolved : Resolution) (operation : Operation)
    (cmd : Command) (args : List String) : ProbeOutcome :=
  let operation : Operation := { operation with context := resolved.1 }
  match resolved.2 with
  | some _ => ⟨operation, [], [], false⟩
  | none =>
    if !operation.context.Kubernetes.Enabled then
      ⟨operation, [], [], false⟩
    else
      let ran := Operation.Run exec operation cmd args
      match ran.err with
      | some err => ⟨ran.operation, ran.calls, outputFail [] err, true⟩
      | none => ⟨ran.operation, ran.calls, [], true⟩

/-- The node reached from a node after `steps` parent links, if the chain is
that long. -/
def Command.ancestor : Nat → Command → Option Command
  | 0, cmd => some cmd
  | steps + 1, cmd =>
    match cmd.Parent with
    | none => none
    | some parent => Command.ancestor steps parent

/-- A chain of `depth` nodes named `c` below a root named `kafkactl`. -/
def chainOfDepth : Nat → Command
  | 0 => .root "kafkactl" []
  | depth + 1 => .sub "c" [] (chainOfDepth depth)

/-! ## Reference definitions, worded after the specification -/

/-- The environment list as section 4.2(c) words it: `BROKERS` always, each
boolean key only when true, each string key only when its value is not
empty, in the listed order. -/
def podEnvironmentSpec (context : ClientContext) : List String :=
  ["BROKERS=" ++ " ".intercalate context.Brokers]
    ++ (if context.TLS.Enabled = true then ["TLS_ENABLED=true"] else [])
    ++ (if context.TLS.CA ≠ "" then ["TLS_CA=" ++ context.TLS.CA] else [])
    ++ (if context.TLS.Cert ≠ "" then ["TLS_CERT=" ++ context.TLS.Cert] else [])
    ++ (if context.TLS.CertKey ≠ "" then ["TLS_CERTKEY=" ++ context.TLS.CertKey] else [])
    ++ (if context.TLS.Insecure = true then ["TLS_INSECURE=true"] else [])
    ++ (if context.Sasl.Enabled = true then ["SASL_ENABLED=true"] else [])
    ++ (if context.Sasl.Username ≠ "" then ["SASL_USERNAME=" ++ context.Sasl.Username] else [])
    ++ (if context.Sasl.Password ≠ "" then ["SASL_PASSWORD=" ++ context.Sasl.Password] else [])
    ++ (if context.Sasl.Mechanism ≠ "" then ["SASL_MECHANISM=" ++ context.Sasl.Mechanism] else [])
    ++ (if context.RequestTimeout.String ≠ "" then
          ["REQUESTTIMEOUT=" ++ context.RequestTimeout.String] else [])
    ++ (if context.ClientID ≠ "" then ["CLIENTID=" ++ context.ClientID] else [])
    ++ (if context.KafkaVersion.String ≠ "" then
          ["KAFKAVERSION=" ++ context.KafkaVersion.String] else [])
    ++ (if context.AvroSchemaRegistry ≠ "" then
          ["AVRO_SCHEMAREGISTRY=" ++ context.AvroSchemaRegistry] else [])
    ++ (if context.DefaultPartitioner ≠ "" then
          ["DEFAULTPARTITIONER=" ++ context.DefaultPartitioner] else [])

/-- One element of a JSON array of integers as it is written: JSON whitespace,
an integer literal (an optional minus sign and a digit string), JSON
whitespace. -/
structure ArrayItem where
  before : List Char
  negative : Bool
  digits : List Char
  after : List Char
  deriving DecidableEq, Repr

/-- The literal is a JSON number without fraction and exponent (no leading
zero), and the blanks around it are JSON whitespace. -/
def ArrayItem.wellFormed (item : ArrayItem) : Bool :=
  item.before.all isJSONSpace && item.after.all isJSONSpace
    && !item.digits.isEmpty && item.digits.all Char.isDigit
    && (item.digits.head? != some '0' || item.digits.length == 1)

/-- The integer literal of an element. -/
def ArrayItem.literal (item : ArrayItem) : List Char :=
  (if item.negative then ['-'] else []) ++ item.digits

/-- The characters of an element. -/
def ArrayItem.text (item : ArrayItem) : List Char :=
  item.before ++ (item.literal ++ item.after)

/-- The integer an element denotes. -/
def ArrayItem.value (item : ArrayItem) : Int :=
  if item.negative then -(digitsValue item.digits : Int) else (digitsValue item.digits : Int)

/-- The elements of an array, separated by commas. -/
def itemsText : List ArrayItem → List Char
  | [] => []
  | [item] => item.text
  | item :: next :: rest => item.text ++ ',' :: itemsText (next :: rest)

/-- The characters of the elements from the first literal on. -/
def itemsBody : List ArrayItem → List Char
  | [] => []
  | item :: rest => item.literal ++ (item.after ++
      match rest with
      | [] => []
      | next :: more => ',' :: itemsText (next :: more))

/-- A JSON text that is an array of integers, as it is written: whitespace, an
opening bracket, whitespace, the elements, a closing bracket, whitespace. -/
structure ArrayText where
  lead : List Char
  inner : List Char
  items : List ArrayItem
  trail : List Char
  deriving DecidableEq, Repr

/-- All blanks are JSON whitespace and every element is well formed. -/
def ArrayText.wellFormed (a : ArrayText) : Bool :=
  a.lead.all isJSONSpace && a.inner.all isJSONSpace && a.trail.all isJSONSpace
    && a.items.all ArrayItem.wellFormed

/-- The text of the array. -/
def ArrayText.text (a : ArrayText) : String :=
  ⟨a.lead ++ '[' :: (a.inner ++ (itemsText a.items ++ ']' :: a.trail))⟩

/-- The integers `[v1, ..., vn]` the array holds. -/
def ArrayText.values (a : ArrayText) : List Int :=
  a.items.map ArrayItem.value

/-- The string is a JSON array of integers holding `values`. -/
def IsJSONIntArray (text : String) (values : List Int) : Prop :=
  ∃ a : ArrayText, a.wellFormed = true ∧ a.text = text ∧ a.values = values

/-- One element of a JSON array as the decoding into a list of ints takes it: an
integer literal or the literal `null`, with JSON whitespace around. -/
inductive ArrayElement where
  | integer (item : ArrayItem)
  | null (before after : List Char)
  deriving DecidableEq, Repr

/-- The whitespace before the element. -/
def ArrayElement.before : ArrayElement → List Char
  | .integer item => item.before
  | .null before _ => before

/-- The element without the whitespace around it. -/
def ArrayElement.core : ArrayElement → List Char
  | .integer item => item.literal
  | .null _ _ => ['n', 'u', 'l', 'l']

/-- The whitespace after the element. -/
def ArrayElement.after : ArrayElement → List Char
  | .integer item => item.after
  | .null _ after => after

/-- The int the element leaves in the slice: the value of the literal, `0` for
`null`. -/
def ArrayElement.value : ArrayElement → Int
  | .integer item => item.value
  | .null _ _ => 0

/-- The element is well formed and, when it is an integer literal, its value is
within the range of a 64-bit int. -/
def ArrayElement.decodable : ArrayElement → Bool
  | .integer item =>
    item.wellFormed && decide (minInt ≤ item.value) && decide (item.value ≤ maxInt)
  | .null before after => before.all isJSONSpace && after.all isJSONSpace

/-- The characters of an element. -/
def ArrayElement.text (element : ArrayElement) : List Char :=
  element.before ++ (element.core ++ element.after)

/-- The element with more whitespace in front. -/
def ArrayElement.withBefore (blank : List Char) : ArrayElement → ArrayElement
  | .integer item => .integer { item with before := blank ++ item.before }
  | .null before after => .null (blank ++ before) after

/-- The elements of an array, separated by commas. -/
def elementsText : List ArrayElement → List Char
  | [] => []
  | [element] => element.text
  | element :: next :: rest => element.text ++ ',' :: elementsText (next :: rest)

/-- The characters of the elements from the first element on, without the
whitespace before it. -/
def elementsBody : List ArrayElement → List Char
  | [] => []
  | element :: rest => element.core ++ (element.after ++
      match rest with
      | [] => []
      | next :: more => ',' :: elementsText (next :: more))

/-- A JSON text that is an array of integer literals and `null`s, as it is
written: whitespace, an opening bracket, whitespace, the elements, a closing
bracket, whitespace. -/
structure ElementArray where
  lead : List Char
  inner : List Char
  elements : List ArrayElement
  trail : List Char
  deriving DecidableEq, Repr

/-- All blanks are JSON whitespace and every element is decodable. -/
def ElementArray.decodable (a : ElementArray) : Bool :=
  a.lead.all isJSONSpace && a.inner.all isJSONSpace && a.trail.all isJSONSpace
    && a.elements.all ArrayElement.decodable

/-- The text of the array. -/
def ElementArray.text (a : ElementArray) : String :=
  ⟨a.lead ++ '[' :: (a.inner ++ (elementsText a.elements ++ ']' :: a.trail))⟩

/-- The ints the array leaves in the slice. -/
def ElementArray.values (a : ElementArray) : List Int :=
  a.elements.map ArrayElement.value

/-- The string is the JSON literal `null`, with JSON whitespace around. -/
def IsNullText (text : String) : Prop :=
  ∃ lead trail : List Char, lead.all isJSONSpace = true ∧ trail.all isJSONSpace = true ∧
    text.data = lead ++ 'n' :: 'u' :: 'l' :: 'l' :: trail

/-- The string is the JSON literal `null` and `values` is empty, or the string
is a JSON array whose elements are integers within the range of a 64-bit int or
`null`, and `values` are its integers in order with `0` for each `null`. -/
def DecodesTo (text : String) (values : List Int) : Prop :=
  (IsNullText text ∧ values = []) ∨
    ∃ a : ElementArray, a.decodable = true ∧ a.text = text ∧ a.values = values

/-- The string is the JSON literal `null` or a JSON array whose elements are
integers within the range of a 64-bit int or `null`. -/
def IsDecodable (text : String) : Prop :=
  ∃ values, DecodesTo text values

/-- The fifteen entries `parsePodEnvironment` considers, in order: whether the
entry is emitted, its key and its value. -/
def podEntryTable (context : ClientContext) : List (Bool × String × String) :=
  [(true, "BROKERS", " ".intercalate context.Brokers),
   (context.TLS.Enabled, "TLS_ENABLED", "true"),
   (context.TLS.CA != "", "TLS_CA", context.TLS.CA),
   (context.TLS.Cert != "", "TLS_CERT", context.TLS.Cert),
   (context.TLS.CertKey != "", "TLS_CERTKEY", context.TLS.CertKey),
   (context.TLS.Insecure, "TLS_INSECURE", "true"),
   (context.Sasl.Enabled, "SASL_ENABLED", "true"),
   (context.Sasl.Username != "", "SASL_USERNAME", context.Sasl.Username),
   (context.Sasl.Password != "", "SASL_PASSWORD", context.Sasl.Password),
   (context.Sasl.Mechanism != "", "SASL_MECHANISM", context.Sasl.Mechanism),
   (context.RequestTimeout.String != "", "REQUESTTIMEOUT", context.RequestTimeout.String),
   (context.ClientID != "", "CLIENTID", context.ClientID),
   (context.KafkaVersion.String != "", "KAFKAVERSION", context.KafkaVersion.String),
   (context.AvroSchemaRegistry != "", "AVRO_SCHEMAREGISTRY", context.AvroSchemaRegistry),
   (context.DefaultPartitioner != "", "DEFAULTPARTITIONER", context.DefaultPartitioner)]

/-- The entry `KEY=VALUE` of a row of the table. -/
def entryOf (row : Bool × String × String) : String :=
  row.2.1 ++ "=" ++ row.2.2

/-- The keys of the table, in order. -/
def podKeys : List String :=
  ["BROKERS", "TLS_ENABLED", "TLS_CA", "TLS_CERT", "TLS_CERTKEY", "TLS_INSECURE",
   "SASL_ENABLED", "SASL_USERNAME", "SASL_PASSWORD", "SASL_MECHANISM", "REQUESTTIMEOUT",
   "CLIENTID", "KAFKAVERSION", "AVRO_SCHEMAREGISTRY", "DEFAULTPARTITIONER"]

/-- The key of an entry `KEY=VALUE`: the characters before the first `=`. -/
def entryKey (entry : String) : List Char :=
  entry.data.takeWhile (fun c => c != '=')

/-- The entry begins with `KEY=`. -/
def beginsWith (key : String) (entry : String) : Prop :=
  (key ++ "=").data <+: entry.data

/-- Splitting a text on single spaces, as `strings.Split(text, " ")` does: the
pieces between consecutive spaces, empty pieces included. -/
def splitSpaces : List Char → List (List Char)
  | [] => [[]]
  | c :: cs =>
    if c = ' ' then [] :: splitSpaces cs
    else
      match splitSpaces cs with
      | [] => [[c]]
      | piece :: pieces => (c :: piece) :: pieces

/-- Splitting a string on single spaces. -/
def splitOnSpace (text : String) : List String :=
  (splitSpaces text.data).map String.mk

/-- The text of an entry after its first 8 characters, the length of
`BROKERS=`. -/
def brokersValue (entry : String) : String :=
  ⟨entry.data.drop 8⟩

/-! ## Sample inputs -/

/-- A context that passes validation. -/
def sampleContext : ClientContext :=
  { Name := "dev", Brokers := ["b1:9092", "b2:9092"],
    TLS := ⟨true, "", "", "", true⟩, Sasl := ⟨false, "", "", ""⟩,
    Kubernetes := ⟨true, "kind-dev", "kafka"⟩, RequestTimeout := .absent, ClientID := "",
    KafkaVersion := .absent, AvroSchemaRegistry := "", DefaultPartitioner := "" }

/-- The node `topics` of the tree `kafkactl -> get -> topics`, with one changed
flag `output`. -/
def sampleCommand : Command :=
  .sub "topics" [⟨"output", true, "string", "json"⟩] (.sub "get" [] (.root "kafkactl" []))

/-- An executor whose every call fails. -/
def failingExecutor : Executor := fun _ _ => some (.foreign "pod failed")

/-! ## Theorems -/

/-- C1: validation returns an error exactly when the context is not
Kubernetes-enabled, or its kubeContext is empty, or its namespace is empty,
and it never changes the operation's context. -/
theorem initialize_error_iff (operation : Operation) :
    ((( Operation.initialize operation).2 ≠ none) ↔
      (operation.context.Kubernetes.Enabled = false ∨
        operation.context.Kubernetes.KubeContext = "" ∨
        operation.context.Kubernetes.Namespace = "")) ∧
    ( Operation.initialize operation).1 = operation := by
  unfold Operation.initialize
  cases hE : operation.context.Kubernetes.Enabled <;>
    by_cases hK : operation.context.Kubernetes.KubeContext = "" <;>
    by_cases hN : operation.context.Kubernetes.Namespace = "" <;>
    simp [hK, hN]

/-- C2: a failing validation names the missing field and the context: the
"not a kubernetes context" message when the context is not enabled, the
`kubeContext` path when it is enabled with an empty kubeContext (whatever the
namespace), the `namespace` path when only the namespace is empty. -/
theorem initialize_error_message (operation : Operation) :
    (operation.context.Kubernetes.Enabled = false →
      ( Operation.initialize operation).2 = some (.errorf
        ("context is not a kubernetes context: " ++ operation.context.Name))) ∧
    (operation.context.Kubernetes.Enabled = true →
      operation.context.Kubernetes.KubeContext = "" →
      ( Operation.initialize operation).2 = some (.errorf
        ("context has no kubernetes context set: contexts." ++ operation.context.Name
          ++ ".kubernetes.kubeContext"))) ∧
    (operation.context.Kubernetes.Enabled = true →
      operation.context.Kubernetes.KubeContext ≠ "" →
      operation.context.Kubernetes.Namespace = "" →
      ( Operation.initialize operation).2 = some (.errorf
        ("context has no kubernetes namespace set: contexts." ++ operation.context.Name
          ++ ".kubernetes.namespace"))) := by
  refine ⟨fun hE => ?_, fun hE hK => ?_, fun hE hK hN => ?_⟩
  · simp [ Operation.initialize, hE]
  · simp [ Operation.initialize, hE, hK]
  · simp [ Operation.initialize, hE, hK, hN]

/-- Witness of `initialize_error_message`: one context for each of the three
failures. -/
theorem initialize_error_message_witness :
    ( Operation.initialize ⟨{ sampleContext with Kubernetes := ⟨false, "k", "n"⟩ }⟩).2
      = some (.errorf "context is not a kubernetes context: dev") ∧
    ( Operation.initialize ⟨{ sampleContext with Kubernetes := ⟨true, "", ""⟩ }⟩).2
      = some (.errorf
          "context has no kubernetes context set: contexts.dev.kubernetes.kubeContext") ∧
    ( Operation.initialize ⟨{ sampleContext with Kubernetes := ⟨true, "k", ""⟩ }⟩).2
      = some (.errorf
          "context has no kubernetes namespace set: contexts.dev.kubernetes.namespace") :=
  ⟨(initialize_error_message ⟨{ sampleContext with Kubernetes := ⟨false, "k", "n"⟩ }⟩).1 rfl,
   (initialize_error_message ⟨{ sampleContext with Kubernetes := ⟨true, "", ""⟩ }⟩).2.1 rfl rfl,
   (initialize_error_message ⟨{ sampleContext with Kubernetes := ⟨true, "k", ""⟩ }⟩).2.2 rfl
      (by decide) rfl⟩

/-! ### Command path -/

/-- The source's recursion, read through `Parent()` and `Name()`. -/
theorem parseCompleteCommand_unfold (cmd : Command) (found : List String) :
    parseCompleteCommand cmd found =
      match cmd.Parent with
      | none => found
      | some parent => parseCompleteCommand parent ([cmd.Name] ++ found) := by
  cases cmd <;> rfl

/-- The chain of a node ends in the node, starts at a node without parent, and
each node in it is the parent of the next one. -/
theorem chain_is_parent_chain (cmd : Command) :
    cmd.chain.getLast? = some cmd ∧
    (∃ top rest, cmd.chain = top :: rest ∧ top.Parent = none) ∧
    List.Chain' (fun above below => below.Parent = some above) cmd.chain := by
  induction cmd with
  | root name flags => simp [Command.chain, Command.Parent]
  | sub name flags parent ih =>
    obtain ⟨hlast, ⟨top, rest, hchain, htop⟩, hlinks⟩ := ih
    refine ⟨by simp [Command.chain], ⟨top, rest ++ [.sub name flags parent], ?_, htop⟩, ?_⟩
    · simp [Command.chain, hchain]
    · rw [Command.chain, List.chain'_append]
      refine ⟨hlinks, List.chain'_singleton _, ?_⟩
      intro above habove below hbelow
      rw [Option.mem_def] at habove
      rw [hlast] at habove
      simp only [List.head?_cons, Option.mem_def, Option.some.injEq] at hbelow
      cases habove
      cases hbelow
      rfl

/-- With an accumulator, the walk puts the names of the chain below the root
in front of what was found already. -/
theorem parseCompleteCommand_append (cmd : Command) (found : List String) :
    parseCompleteCommand cmd found = (cmd.chain.map Command.Name).tail ++ found := by
  induction cmd generalizing found with
  | root name flags => simp [parseCompleteCommand, Command.chain]
  | sub name flags parent ih =>
    have hne : parent.chain ≠ [] := by cases parent <;> simp [Command.chain]
    rw [parseCompleteCommand, ih, Command.chain, List.map_append, List.tail_append_of_ne_nil]
    · simp [Command.Name]
    · simpa using hne

/-- C3: started with nothing found, the walk returns the names on the parent
chain in root-to-leaf order without the root's name; on `root -> get ->
topics` that is `["get", "topics"]`, on a root alone the empty list. -/
theorem parseCompleteCommand_path (cmd : Command) :
    parseCompleteCommand cmd [] = (cmd.chain.map Command.Name).tail ∧
    (∀ (top : String) (f0 f1 f2 : List Flag),
      parseCompleteCommand (.sub "topics" f2 (.sub "get" f1 (.root top f0))) []
        = ["get", "topics"]) ∧
    (∀ (top : String) (f0 : List Flag), parseCompleteCommand (.root top f0) [] = []) := by
  refine ⟨?_, fun _ _ _ _ => rfl, fun _ _ => rfl⟩
  rw [parseCompleteCommand_append, List.append_nil]

/-! ### Environment list -/

/-- The entry `appendBool` adds. -/
theorem appendBool_eq (env : List String) (key : String) (value : Bool) :
    appendBool env key value = env ++ (if value = true then [key ++ "=true"] else []) := by
  cases value
  · simp [appendBool]
  · simp only [appendBool, fmtBool, if_true, String.append_assoc]
    rfl

/-- The entry `appendStringIfDefined` adds. -/
theorem appendStringIfDefined_eq (env : List String) (key value : String) :
    appendStringIfDefined env key value
      = env ++ (if value ≠ "" then [key ++ "=" ++ value] else []) := by
  by_cases h : value = "" <;> simp [appendStringIfDefined, h]

/-- C7: the environment list is the one section 4.2(c) describes, entry by
entry and in that order; being a function of the context, it is the same list
for the same context. -/
theorem parsePodEnvironment_eq_spec (context : ClientContext) :
    parsePodEnvironment context = podEnvironmentSpec context := by
  simp only [parsePodEnvironment, podEnvironmentSpec, appendStrings, appendBool_eq,
    appendStringIfDefined_eq, List.nil_append, List.append_assoc, String.append_assoc]
  rfl

/-- C8: with no brokers, all booleans false, all strings empty and the two
rendered values absent the list is `["BROKERS="]`; with two brokers and the
two TLS booleans true it is the three entries of the specification. -/
theorem parsePodEnvironment_examples (name : String) (k : K8sConfig) :
    parsePodEnvironment
      { Name := name, Brokers := [], TLS := ⟨false, "", "", "", false⟩,
        Sasl := ⟨false, "", "", ""⟩, Kubernetes := k, RequestTimeout := .absent,
        ClientID := "", KafkaVersion := .absent, AvroSchemaRegistry := "",
        DefaultPartitioner := "" } = ["BROKERS="] ∧
    parsePodEnvironment
      { Name := name, Brokers := ["b1:9092", "b2:9092"], TLS := ⟨true, "", "", "", true⟩,
        Sasl := ⟨false, "", "", ""⟩, Kubernetes := k, RequestTimeout := .absent,
        ClientID := "", KafkaVersion := .absent, AvroSchemaRegistry := "",
        DefaultPartitioner := "" }
      = ["BROKERS=b1:9092 b2:9092", "TLS_ENABLED=true", "TLS_INSECURE=true"] :=
  ⟨rfl, rfl⟩

/-! ### Flag reconstruction: the fold over the flag set -/

/-- The loop over `intArray` appends one token per integer, in order. -/
theorem foldl_append_tokens (tok : Int → String) (ints : List Int) (acc : List String) :
    ints.foldl (fun flags value => flags ++ [tok value]) acc = acc ++ ints.map tok := by
  induction ints generalizing acc with
  | nil => simp
  | cons v vs ih => simp [List.foldl_cons, ih]

/-- With an error pending the closure does nothing. -/
theorem parseFlagsVisit_pending (acc : List String) (err : GoError) (flag : Flag) :
    parseFlagsVisit (acc, some err) flag = (acc, some err) := by
  simp [parseFlagsVisit]

/-- With no error pending the closure appends the tokens of the flag and sets
the error of the flag. -/
theorem parseFlagsVisit_clean (acc : List String) (flag : Flag) :
    parseFlagsVisit (acc, none) flag = (acc ++ flagTokens flag, flagError flag) := by
  unfold flagTokens flagError parseFlagsVisit
  by_cases hc : flag.Changed = true
  · by_cases ht : (flag.ValueType == "intSlice" || flag.ValueType == "int32Slice") = true
    · cases hp : parseIntArray flag.ValueString with
      | ok ints => simp [hc, ht, foldl_append_tokens]
      | error e => simp [hc, ht]
    · simp [hc, ht]
  · simp [hc]

/-- Once an error is pending, the rest of the enumeration changes nothing. -/
theorem foldl_visit_pending (flags : List Flag) (acc : List String) (err : GoError) :
    flags.foldl parseFlagsVisit (acc, some err) = (acc, some err) := by
  induction flags with
  | nil => rfl
  | cons f fs ih => rw [List.foldl_cons, parseFlagsVisit_pending, ih]

/-- Starting from tokens `acc` and no error, the enumeration appends to `acc`
what it returns when started from nothing. -/
theorem foldl_visit_clean (flags : List Flag) (acc : List String) :
    flags.foldl parseFlagsVisit (acc, none)
      = (acc ++ (parseFlagSet flags).1, (parseFlagSet flags).2) := by
  induction flags generalizing acc with
  | nil => simp [parseFlagSet]
  | cons f fs ih =>
    rw [parseFlagSet, List.foldl_cons, List.foldl_cons, parseFlagsVisit_clean,
      parseFlagsVisit_clean]
    cases he : flagError f with
    | some e => simp [foldl_visit_pending]
    | none =>
      rw [ih (acc ++ flagTokens f), ih ([] ++ flagTokens f)]
      simp

/-- The result for a flag set in terms of its first flag and the rest. -/
theorem parseFlagSet_cons (f : Flag) (fs : List Flag) :
    parseFlagSet (f :: fs) =
      match flagError f with
      | some e => (flagTokens f, some e)
      | none => (flagTokens f ++ (parseFlagSet fs).1, (parseFlagSet fs).2) := by
  rw [parseFlagSet, List.foldl_cons, parseFlagsVisit_clean]
  cases he : flagError f with
  | some e => simp [foldl_visit_pending]
  | none => simp [foldl_visit_clean]

/-- When the flags of `pre` all pass, the enumeration of `pre ++ post` is the
tokens of `pre` followed by the result for `post`. -/
theorem parseFlagSet_append (pre post : List Flag) (h : (parseFlagSet pre).2 = none) :
    parseFlagSet (pre ++ post)
      = ((parseFlagSet pre).1 ++ (parseFlagSet post).1, (parseFlagSet post).2) := by
  have hpre : parseFlagSet pre = ((parseFlagSet pre).1, none) := by rw [← h]
  rw [parseFlagSet, List.foldl_append]
  change List.foldl parseFlagsVisit (parseFlagSet pre) post = _
  rw [hpre, foldl_visit_clean]

/-- When a flag of `pre` fails, flags after `pre` do not matter. -/
theorem parseFlagSet_append_failed (pre post : List Flag) (e : GoError)
    (h : (parseFlagSet pre).2 = some e) :
    parseFlagSet (pre ++ post) = parseFlagSet pre := by
  have hpre : parseFlagSet pre = ((parseFlagSet pre).1, some e) := by rw [← h]
  rw [parseFlagSet, List.foldl_append]
  change List.foldl parseFlagsVisit (parseFlagSet pre) post = _
  rw [hpre, foldl_visit_pending]

/-! ### Flag reconstruction: what one flag contributes -/

/-- An unchanged flag contributes nothing. -/
theorem flag_unchanged (f : Flag) (h : f.Changed = false) :
    flagTokens f = [] ∧ flagError f = none := by
  simp [flagTokens, flagError, parseFlagsVisit, h]

/-- A changed flag that is not a list of integers contributes its one token. -/
theorem flag_plain (f : Flag) (hc : f.Changed = true) (h1 : f.ValueType ≠ "intSlice")
    (h2 : f.ValueType ≠ "int32Slice") :
    flagTokens f = ["--" ++ f.Name ++ "=" ++ f.ValueString] ∧ flagError f = none := by
  simp [flagTokens, flagError, parseFlagsVisit, hc, h1, h2]

/-- A changed list flag whose value decodes contributes one token per integer. -/
theorem flag_ints_ok (f : Flag) (hc : f.Changed = true)
    (ht : f.ValueType = "intSlice" ∨ f.ValueType = "int32Slice") (ints : List Int)
    (hp : decodeInts f.ValueString.data = some ints) :
    flagTokens f = ints.map (fun v => "--" ++ f.Name ++ "=" ++ itoa v) ∧ flagError f = none := by
  have ht' : (f.ValueType == "intSlice" || f.ValueType == "int32Slice") = true := by
    rcases ht with h | h <;> simp [h]
  simp [flagTokens, flagError, parseFlagsVisit, hc, ht', parseIntArray, hp, foldl_append_tokens]

/-- A changed list flag whose value does not decode contributes the error only. -/
theorem flag_ints_error (f : Flag) (hc : f.Changed = true)
    (ht : f.ValueType = "intSlice" ∨ f.ValueType = "int32Slice")
    (hp : decodeInts f.ValueString.data = none) :
    flagTokens f = [] ∧ flagError f = some (.unmarshal f.ValueString) := by
  have ht' : (f.ValueType == "intSlice" || f.ValueType == "int32Slice") = true := by
    rcases ht with h | h <;> simp [h]
  simp [flagTokens, flagError, parseFlagsVisit, hc, ht', parseIntArray, hp]

/-- The flags that set an error. -/
theorem flagError_iff (f : Flag) :
    flagError f ≠ none ↔ (f.Changed = true ∧
      (f.ValueType = "intSlice" ∨ f.ValueType = "int32Slice") ∧
      decodeInts f.ValueString.data = none) := by
  constructor
  · intro h
    cases hc : f.Changed with
    | false => exact absurd (flag_unchanged f hc).2 h
    | true =>
      by_cases h1 : f.ValueType = "intSlice"
      · cases hp : decodeInts f.ValueString.data with
        | none => exact ⟨rfl, Or.inl h1, rfl⟩
        | some ints => exact absurd (flag_ints_ok f hc (Or.inl h1) ints hp).2 h
      · by_cases h2 : f.ValueType = "int32Slice"
        · cases hp : decodeInts f.ValueString.data with
          | none => exact ⟨rfl, Or.inr h2, rfl⟩
          | some ints => exact absurd (flag_ints_ok f hc (Or.inr h2) ints hp).2 h
        · exact absurd (flag_plain f hc h1 h2).2 h
  · rintro ⟨hc, ht, hp⟩
    rw [(flag_ints_error f hc ht hp).2]
    simp

/-- The enumeration ends with an error exactly when some flag sets one. -/
theorem parseFlagSet_error_iff (flags : List Flag) :
    (parseFlagSet flags).2 ≠ none ↔ ∃ f ∈ flags, flagError f ≠ none := by
  induction flags with
  | nil => simp [parseFlagSet]
  | cons g gs ih =>
    rw [parseFlagSet_cons]
    cases he : flagError g with
    | some e =>
      simp only [ne_eq, reduceCtorEq, not_false_eq_true, List.mem_cons, true_iff]
      exact ⟨g, Or.inl rfl, by simp [he]⟩
    | none =>
      simp only [List.mem_cons]
      rw [ih]
      constructor
      · rintro ⟨f, hf, h⟩; exact ⟨f, Or.inr hf, h⟩
      · rintro ⟨f, hf | hf, h⟩
        · subst hf; exact absurd he h
        · exact ⟨f, hf, h⟩

/-- Every token of a flag is `--name=...` of a changed flag. -/
theorem mem_flagTokens (f : Flag) (t : String) (h : t ∈ flagTokens f) :
    f.Changed = true ∧ ∃ v, t = "--" ++ f.Name ++ "=" ++ v := by
  cases hc : f.Changed with
  | false => rw [(flag_unchanged f hc).1] at h; cases h
  | true =>
    refine ⟨rfl, ?_⟩
    by_cases h1 : f.ValueType = "intSlice"
    · cases hp : decodeInts f.ValueString.data with
      | none => rw [(flag_ints_error f hc (Or.inl h1) hp).1] at h; cases h
      | some ints =>
        rw [(flag_ints_ok f hc (Or.inl h1) ints hp).1, List.mem_map] at h
        obtain ⟨v, _, hv⟩ := h
        exact ⟨itoa v, hv.symm⟩
    · by_cases h2 : f.ValueType = "int32Slice"
      · cases hp : decodeInts f.ValueString.data with
        | none => rw [(flag_ints_error f hc (Or.inr h2) hp).1] at h; cases h
        | some ints =>
          rw [(flag_ints_ok f hc (Or.inr h2) ints hp).1, List.mem_map] at h
          obtain ⟨v, _, hv⟩ := h
          exact ⟨itoa v, hv.symm⟩
      · rw [(flag_plain f hc h1 h2).1, List.mem_singleton] at h
        exact ⟨f.ValueString, h⟩

/-- Every returned token is a token of some flag of the set. -/
theorem mem_parseFlagSet (flags : List Flag) (t : String) (h : t ∈ (parseFlagSet flags).1) :
    ∃ g ∈ flags, t ∈ flagTokens g := by
  induction flags with
  | nil => simp [parseFlagSet] at h
  | cons g gs ih =>
    rw [parseFlagSet_cons] at h
    cases he : flagError g with
    | some e =>
      rw [he] at h
      exact ⟨g, List.mem_cons_self _ _, h⟩
    | none =>
      rw [he] at h
      simp only [List.mem_append] at h
      rcases h with h | h
      · exact ⟨g, List.mem_cons_self _ _, h⟩
      · obtain ⟨g', hg', ht⟩ := ih h
        exact ⟨g', List.mem_cons_of_mem _ hg', ht⟩

/-- Two texts `name=value` with names free of `=` agree only when names and
values agree. -/
theorem split_at_equals (n1 n2 v1 v2 : List Char) (h1 : '=' ∉ n1) (h2 : '=' ∉ n2)
    (h : n1 ++ '=' :: v1 = n2 ++ '=' :: v2) : n1 = n2 ∧ v1 = v2 := by
  induction n1 generalizing n2 with
  | nil =>
    cases n2 with
    | nil => simpa using h
    | cons c cs =>
      simp only [List.nil_append, List.cons_append, List.cons.injEq] at h
      exact absurd (h.1 ▸ List.mem_cons_self _ _) h2
  | cons c cs ih =>
    cases n2 with
    | nil =>
      simp only [List.nil_append, List.cons_append, List.cons.injEq] at h
      exact absurd (h.1 ▸ List.mem_cons_self _ _) h1
    | cons d ds =>
      simp only [List.cons_append, List.cons.injEq] at h
      obtain ⟨hn, hv⟩ := ih ds (fun hm => h1 (List.mem_cons_of_mem _ hm))
        (fun hm => h2 (List.mem_cons_of_mem _ hm)) h.2
      exact ⟨by rw [h.1, hn], hv⟩

/-- The token `--name=value` determines name and value, names being free of
`=`. -/
theorem token_injective (n1 n2 v1 v2 : String) (h1 : '=' ∉ n1.data) (h2 : '=' ∉ n2.data)
    (h : "--" ++ n1 ++ "=" ++ v1 = "--" ++ n2 ++ "=" ++ v2) : n1 = n2 ∧ v1 = v2 := by
  have hd := congrArg String.data h
  simp only [String.data_append, List.append_assoc] at hd
  have hd' : n1.data ++ '=' :: v1.data = n2.data ++ '=' :: v2.data := by
    have : "--".data ++ (n1.data ++ ("=".data ++ v1.data))
        = "--".data ++ (n2.data ++ ("=".data ++ v2.data)) := hd
    exact List.append_cancel_left this
  obtain ⟨hn, hv⟩ := split_at_equals _ _ _ _ h1 h2 hd'
  exact ⟨String.ext hn, String.ext hv⟩

/-! ### Decoding the text of an array of integers -/

/-- Leading whitespace is skipped. -/
theorem skipSpace_ws_append (w rest : List Char) (hw : w.all isJSONSpace = true) :
    skipSpace (w ++ rest) = skipSpace rest := by
  induction w with
  | nil => rfl
  | cons c cs ih =>
    simp only [List.all_cons, Bool.and_eq_true] at hw
    simp only [skipSpace, List.cons_append, List.dropWhile_cons, hw.1, if_true]
    exact ih hw.2

/-- Whitespace alone is skipped entirely. -/
theorem skipSpace_ws (w : List Char) (hw : w.all isJSONSpace = true) : skipSpace w = [] := by
  have := skipSpace_ws_append w [] hw
  simpa [skipSpace] using this

/-- Skipping stops at a character that is not whitespace. -/
theorem skipSpace_cons_of_not_space (c : Char) (rest : List Char) (hc : isJSONSpace c = false) :
    skipSpace (c :: rest) = c :: rest := by
  simp [skipSpace, List.dropWhile_cons, hc]

/-- Whitespace is not a digit. -/
theorem not_isDigit_of_isJSONSpace (c : Char) (hc : isJSONSpace c = true) : c.isDigit = false := by
  simp only [isJSONSpace, Bool.or_eq_true, beq_iff_eq] at hc
  rcases hc with ((rfl | rfl) | rfl) | rfl <;> decide

/-- A digit is not whitespace. -/
theorem not_isJSONSpace_of_isDigit (c : Char) (hc : c.isDigit = true) : isJSONSpace c = false := by
  cases h : isJSONSpace c with
  | false => rfl
  | true => rw [not_isDigit_of_isJSONSpace c h] at hc; cases hc

/-- A digit string followed by a non-digit is split off exactly. -/
theorem takeWhile_digits (ds rest : List Char) (hds : ds.all Char.isDigit = true)
    (hrest : ∀ c, rest.head? = some c → c.isDigit = false) :
    (ds ++ rest).takeWhile Char.isDigit = ds ∧ (ds ++ rest).dropWhile Char.isDigit = rest := by
  induction ds with
  | nil =>
    cases rest with
    | nil => simp
    | cons c cs => simp [List.takeWhile_cons, List.dropWhile_cons, hrest c rfl]
  | cons d ds ih =>
    simp only [List.all_cons, Bool.and_eq_true] at hds
    simp [List.takeWhile_cons, List.dropWhile_cons, hds.1, ih hds.2]



/-- The literal of a well-formed element is read with its value. -/
theorem scanInt_literal (item : ArrayItem) (rest : List Char)
    (hwf : item.wellFormed = true)
    (hrest : ∀ c, rest.head? = some c → c.isDigit = false) :
    scanInt (item.literal ++ rest) = some (item.value, rest) := by
  simp only [ArrayItem.wellFormed, Bool.and_eq_true, Bool.not_eq_true', Bool.or_eq_true] at hwf
  obtain ⟨⟨⟨⟨_, _⟩, hne⟩, hdig⟩, hzero⟩ := hwf
  obtain ⟨htake, hdrop⟩ := takeWhile_digits item.digits rest hdig hrest
  have hzero' : (item.digits.head? == some '0' && item.digits.length != 1) = false := by
    rcases hzero with h | h
    · simp only [bne_iff_ne, ne_eq] at h
      simp [h]
    · simp only [beq_iff_eq] at h
      simp [h]
  cases hneg : item.negative with
  | true =>
    simp only [scanInt, ArrayItem.literal, ArrayItem.value, hneg, if_true, List.cons_append,
      List.nil_append, List.head?_cons, beq_self_eq_true, List.tail_cons, htake, hdrop, hne,
      hzero']
    simp
  | false =>
    obtain ⟨d, ds, hd⟩ : ∃ d ds, item.digits = d :: ds := by
      cases h : item.digits with
      | nil => simp [h] at hne
      | cons d ds => exact ⟨d, ds, rfl⟩
    have hdd : d.isDigit = true := by
      rw [hd] at hdig
      simp only [List.all_cons, Bool.and_eq_true] at hdig
      exact hdig.1
    have hminus : (some d == some '-') = false := by
      cases h : (some d == some '-') with
      | false => rfl
      | true =>
        simp only [beq_iff_eq, Option.some.injEq] at h
        rw [h] at hdd
        exact absurd hdd (by decide)
    have hhead : (item.digits ++ rest).head? = some d := by rw [hd]; rfl
    have hlit : item.literal = item.digits := by simp [ArrayItem.literal, hneg]
    rw [hlit]
    simp only [scanInt, ArrayItem.value, hneg, hhead, hminus, Bool.false_eq_true, if_false,
      htake, hdrop, hne, hzero']



/-- A literal starts with a minus sign or a digit. -/
theorem literal_head (item : ArrayItem) (hwf : item.wellFormed = true) :
    ∃ c cs, item.literal = c :: cs ∧ (c = '-' ∨ c.isDigit = true) := by
  simp only [ArrayItem.wellFormed, Bool.and_eq_true, Bool.not_eq_true'] at hwf
  obtain ⟨⟨⟨_, hne⟩, hdig⟩, _⟩ := hwf
  cases hneg : item.negative with
  | true => exact ⟨'-', item.digits, by simp [ArrayItem.literal, hneg], Or.inl rfl⟩
  | false =>
    cases hd : item.digits with
    | nil => simp [hd] at hne
    | cons d ds =>
      rw [hd] at hdig
      simp only [List.all_cons, Bool.and_eq_true] at hdig
      exact ⟨d, ds, by simp [ArrayItem.literal, hneg, hd], Or.inr hdig.1⟩

/-- A minus sign or digit is none of `n`, `]`, whitespace. -/
theorem literal_head_facts (c : Char) (h : c = '-' ∨ c.isDigit = true) :
    c ≠ 'n' ∧ c ≠ ']' ∧ isJSONSpace c = false := by
  rcases h with rfl | h
  · decide
  · refine ⟨?_, ?_, not_isJSONSpace_of_isDigit c h⟩
    · rintro rfl; exact absurd h (by decide)
    · rintro rfl; exact absurd h (by decide)

/-- A well-formed element within the 64-bit range is read with its value. -/
theorem scanElem_literal (item : ArrayItem) (rest : List Char)
    (hwf : item.wellFormed = true)
    (hrest : ∀ c, rest.head? = some c → c.isDigit = false)
    (hrange : minInt ≤ item.value ∧ item.value ≤ maxInt) :
    scanElem (item.literal ++ rest) = some (item.value, rest) := by
  obtain ⟨c, cs, hlit, hc⟩ := literal_head item hwf
  have hn := (literal_head_facts c hc).1
  unfold scanElem
  split
  · next r heq =>
    rw [hlit] at heq
    simp only [List.cons_append, List.cons.injEq] at heq
    exact absurd heq.1 hn
  · rw [scanInt_literal item rest hwf hrest]
    simp [hrange]

/-- The text of the elements is the whitespace before the first literal and the
text from that literal on. -/
theorem itemsText_cons (item : ArrayItem) (rest : List ArrayItem) :
    itemsText (item :: rest) = item.before ++ itemsBody (item :: rest) := by
  cases rest with
  | nil => simp [itemsText, itemsBody, ArrayItem.text]
  | cons next more => simp [itemsText, itemsBody, ArrayItem.text]

/-- What follows a literal starts with whitespace or a separator, not with a
digit. -/
theorem after_head (w : List Char) (sep : Char) (more : List Char)
    (hw : w.all isJSONSpace = true) (hsep : sep.isDigit = false) :
    ∀ c, (w ++ sep :: more).head? = some c → c.isDigit = false := by
  intro c hc
  cases w with
  | nil =>
    simp only [List.nil_append, List.head?_cons, Option.some.injEq] at hc
    rw [← hc]; exact hsep
  | cons x xs =>
    simp only [List.all_cons, Bool.and_eq_true] at hw
    simp only [List.cons_append, List.head?_cons, Option.some.injEq] at hc
    rw [← hc]; exact not_isDigit_of_isJSONSpace x hw.1

/-- The elements of a well-formed array within the 64-bit range are read in
order, given fuel for each of them. -/
theorem scanElems_items (items : List ArrayItem) (item : ArrayItem) (tail : List Char)
    (fuel : Nat) (hfuel : items.length < fuel)
    (hwf : (item :: items).all ArrayItem.wellFormed = true)
    (hrange : ∀ v ∈ (item :: items).map ArrayItem.value, minInt ≤ v ∧ v ≤ maxInt) :
    scanElems fuel (itemsBody (item :: items) ++ ']' :: tail)
      = some ((item :: items).map ArrayItem.value, tail) := by
  induction items generalizing item fuel with
  | nil =>
    obtain ⟨fuel, rfl⟩ : ∃ k, fuel = k + 1 := ⟨fuel - 1, by omega⟩
    simp only [List.all_cons, List.all_nil, Bool.and_true] at hwf
    have hw : item.after.all isJSONSpace = true := by
      simp only [ArrayItem.wellFormed, Bool.and_eq_true] at hwf
      exact hwf.1.1.1.2
    have hr := hrange item.value (by simp)
    simp only [itemsBody, List.append_nil, List.append_assoc]
    rw [scanElems, scanElem_literal item _ hwf (after_head _ ']' tail hw (by decide)) hr]
    simp only [skipSpace_ws_append _ _ hw]
    rw [skipSpace_cons_of_not_space _ _ (by decide)]
    simp
  | cons next more ih =>
    obtain ⟨fuel, rfl⟩ : ∃ k, fuel = k + 1 := ⟨fuel - 1, by omega⟩
    have hwf' := hwf
    simp only [List.all_cons, Bool.and_eq_true] at hwf
    have hw : item.after.all isJSONSpace = true := by
      have := hwf.1
      simp only [ArrayItem.wellFormed, Bool.and_eq_true] at this
      exact this.1.1.1.2
    have hwn : next.before.all isJSONSpace = true := by
      have := hwf.2.1
      simp only [ArrayItem.wellFormed, Bool.and_eq_true] at this
      exact this.1.1.1.1
    have hr := hrange item.value (by simp)
    have hih := ih next fuel (by simp only [List.length_cons] at hfuel; omega)
      (by simp only [List.all_cons, Bool.and_eq_true]; exact hwf.2)
      (fun v hv => hrange v (by simp only [List.map_cons, List.mem_cons] at hv ⊢; exact Or.inr hv))
    rw [itemsBody]
    simp only [List.append_assoc, List.cons_append]
    rw [scanElems, scanElem_literal item _ hwf.1 (after_head _ ',' _ hw (by decide)) hr]
    simp only [skipSpace_ws_append _ _ hw]
    rw [skipSpace_cons_of_not_space _ _ (by decide)]
    simp only [itemsText_cons, List.append_assoc, skipSpace_ws_append _ _ hwn]
    obtain ⟨c, cs, hlit, hc⟩ := literal_head next hwf.2.1
    obtain ⟨body, hbody⟩ : ∃ body, itemsBody (next :: more) ++ ']' :: tail = c :: body := by
      simp only [itemsBody, hlit, List.cons_append]
      exact ⟨_, rfl⟩
    rw [hbody, skipSpace_cons_of_not_space _ _ (literal_head_facts c hc).2.2, ← hbody, hih]
    rfl



/-- Every element takes at least one character, so the length of the text is
enough fuel. -/
theorem itemsBody_length (items : List ArrayItem) (hwf : items.all ArrayItem.wellFormed = true) :
    items.length ≤ (itemsBody items).length := by
  induction items with
  | nil => simp
  | cons item rest ih =>
    simp only [List.all_cons, Bool.and_eq_true] at hwf
    obtain ⟨c, cs, hlit, _⟩ := literal_head item hwf.1
    cases rest with
    | nil => simp [itemsBody, hlit]
    | cons next more =>
      have h := ih hwf.2
      have e : itemsBody (item :: next :: more)
          = item.literal ++ (item.after ++ ',' :: itemsText (next :: more)) := rfl
      rw [e, itemsText_cons, hlit]
      simp only [List.length_append, List.length_cons] at h ⊢
      omega

/-- The decoding accepts every JSON array of integers within the 64-bit range,
with its values in order. -/
theorem decodeInts_arrayText (a : ArrayText) (hwf : a.wellFormed = true)
    (hrange : ∀ v ∈ a.values, minInt ≤ v ∧ v ≤ maxInt) :
    decodeInts a.text.data = some a.values := by
  simp only [ArrayText.wellFormed, Bool.and_eq_true] at hwf
  obtain ⟨⟨⟨hlead, hinner⟩, htrail⟩, hitems⟩ := hwf
  unfold decodeInts
  simp only [ArrayText.text, skipSpace_ws_append _ _ hlead]
  rw [skipSpace_cons_of_not_space _ _ (by decide)]
  simp only [skipSpace_ws_append _ _ hinner]
  cases hi : a.items with
  | nil =>
    simp only [itemsText, List.nil_append]
    rw [skipSpace_cons_of_not_space _ _ (by decide)]
    simp [skipSpace_ws _ htrail, ArrayText.values, hi]
  | cons item rest =>
    rw [hi] at hitems
    have hwfi : item.wellFormed = true := by
      simp only [List.all_cons, Bool.and_eq_true] at hitems
      exact hitems.1
    have hb : item.before.all isJSONSpace = true := by
      simp only [ArrayItem.wellFormed, Bool.and_eq_true] at hwfi
      exact hwfi.1.1.1.1
    obtain ⟨c, cs, hlit, hc⟩ := literal_head item hwfi
    obtain ⟨body, hbody⟩ : ∃ body, itemsBody (item :: rest) ++ ']' :: a.trail = c :: body := by
      simp only [itemsBody, hlit, List.cons_append]
      exact ⟨_, rfl⟩
    have hlen : rest.length < (itemsBody (item :: rest) ++ ']' :: a.trail).length := by
      have := itemsBody_length (item :: rest) hitems
      simp only [List.length_cons, List.length_append] at this ⊢
      omega
    have hscan := scanElems_items rest item a.trail _ hlen hitems
      (by simpa [ArrayText.values, hi] using hrange)
    simp only [itemsText_cons, List.append_assoc, skipSpace_ws_append _ _ hb]
    rw [hbody, skipSpace_cons_of_not_space _ _ (literal_head_facts c hc).2.2]
    rw [hbody] at hscan
    have hcb : c ≠ ']' := (literal_head_facts c hc).2.1
    split
    · next r heq =>
      simp only [List.cons.injEq] at heq
      exact absurd heq.1 hcb
    · rw [hscan]
      simp [skipSpace_ws _ htrail, ArrayText.values, hi]

/-! ### Decoding: arrays of integers and `null`s -/

/-- An element starts with a character that is neither `]` nor whitespace. -/
theorem element_core_head (e : ArrayElement) (h : e.decodable = true) :
    ∃ c cs, e.core = c :: cs ∧ c ≠ ']' ∧ isJSONSpace c = false := by
  cases e with
  | integer item =>
    simp only [ArrayElement.decodable, Bool.and_eq_true] at h
    obtain ⟨c, cs, hlit, hc⟩ := literal_head item h.1.1
    exact ⟨c, cs, hlit, (literal_head_facts c hc).2.1, (literal_head_facts c hc).2.2⟩
  | null before after => exact ⟨'n', ['u', 'l', 'l'], rfl, by decide, by decide⟩

/-- The blanks around a decodable element are whitespace. -/
theorem element_blanks (e : ArrayElement) (h : e.decodable = true) :
    e.before.all isJSONSpace = true ∧ e.after.all isJSONSpace = true := by
  cases e with
  | integer item =>
    simp only [ArrayElement.decodable, ArrayItem.wellFormed, Bool.and_eq_true] at h
    exact ⟨h.1.1.1.1.1.1, h.1.1.1.1.1.2⟩
  | null before after =>
    simp only [ArrayElement.decodable, Bool.and_eq_true] at h
    exact h

/-- A decodable element is read with its value. -/
theorem scanElem_core (e : ArrayElement) (rest : List Char) (h : e.decodable = true)
    (hrest : ∀ c, rest.head? = some c → c.isDigit = false) :
    scanElem (e.core ++ rest) = some (e.value, rest) := by
  cases e with
  | integer item =>
    simp only [ArrayElement.decodable, Bool.and_eq_true, decide_eq_true_eq] at h
    exact scanElem_literal item rest h.1.1 hrest ⟨h.1.2, h.2⟩
  | null before after => rfl

/-- The text of the elements is the whitespace before the first element and the
text from that element on. -/
theorem elementsText_cons (e : ArrayElement) (rest : List ArrayElement) :
    elementsText (e :: rest) = e.before ++ elementsBody (e :: rest) := by
  cases rest with
  | nil => simp [elementsText, elementsBody, ArrayElement.text]
  | cons next more => simp [elementsText, elementsBody, ArrayElement.text]

/-- The text from the first element on starts with a character that is neither
`]` nor whitespace. -/
theorem elementsBody_head (e : ArrayElement) (rest : List ArrayElement) (tail : List Char)
    (h : e.decodable = true) :
    ∃ c body, elementsBody (e :: rest) ++ tail = c :: body ∧ c ≠ ']' ∧ isJSONSpace c = false := by
  obtain ⟨c, cs, hcore, hc1, hc2⟩ := element_core_head e h
  have hform : elementsBody (e :: rest) ++ tail
      = c :: (cs ++ ((e.after ++
          match rest with
          | [] => []
          | next :: more => ',' :: elementsText (next :: more)) ++ tail)) := by
    simp only [elementsBody, hcore, List.cons_append, List.append_assoc]
  exact ⟨c, _, hform, hc1, hc2⟩

/-- Decodable elements are read in order, given fuel for each of them. -/
theorem scanElems_elements (rest : List ArrayElement) (e : ArrayElement) (tail : List Char)
    (fuel : Nat) (hfuel : rest.length < fuel)
    (h : (e :: rest).all ArrayElement.decodable = true) :
    scanElems fuel (elementsBody (e :: rest) ++ ']' :: tail)
      = some ((e :: rest).map ArrayElement.value, tail) := by
  induction rest generalizing e fuel with
  | nil =>
    obtain ⟨fuel, rfl⟩ : ∃ k, fuel = k + 1 := ⟨fuel - 1, by omega⟩
    simp only [List.all_cons, List.all_nil, Bool.and_true] at h
    have hw := (element_blanks e h).2
    simp only [elementsBody, List.append_nil, List.append_assoc]
    rw [scanElems, scanElem_core e _ h (after_head _ ']' tail hw (by decide))]
    simp only [skipSpace_ws_append _ _ hw]
    rw [skipSpace_cons_of_not_space _ _ (by decide)]
    simp
  | cons next more ih =>
    obtain ⟨fuel, rfl⟩ : ∃ k, fuel = k + 1 := ⟨fuel - 1, by omega⟩
    simp only [List.all_cons, Bool.and_eq_true] at h
    have hw := (element_blanks e h.1).2
    have hwn := (element_blanks next h.2.1).1
    have hih := ih next fuel (by simp only [List.length_cons] at hfuel; omega)
      (by simp only [List.all_cons, Bool.and_eq_true]; exact h.2)
    have hform : elementsBody (e :: next :: more) ++ ']' :: tail
        = e.core ++ (e.after ++ ',' :: (next.before
            ++ (elementsBody (next :: more) ++ ']' :: tail))) := by
      have e1 : elementsBody (e :: next :: more)
          = e.core ++ (e.after ++ ',' :: elementsText (next :: more)) := rfl
      rw [e1, elementsText_cons]
      simp only [List.append_assoc, List.cons_append]
    rw [hform, scanElems, scanElem_core e _ h.1 (after_head _ ',' _ hw (by decide))]
    simp only [skipSpace_ws_append _ _ hw]
    rw [skipSpace_cons_of_not_space _ _ (by decide)]
    simp only [skipSpace_ws_append _ _ hwn]
    obtain ⟨c, body, hbody, _, hc⟩ := elementsBody_head next more (']' :: tail) h.2.1
    rw [hbody, skipSpace_cons_of_not_space _ _ hc, ← hbody, hih]
    rfl

/-- Every element takes at least one character. -/
theorem elementsBody_length (elements : List ArrayElement)
    (h : elements.all ArrayElement.decodable = true) :
    elements.length ≤ (elementsBody elements).length := by
  induction elements with
  | nil => simp
  | cons e rest ih =>
    simp only [List.all_cons, Bool.and_eq_true] at h
    obtain ⟨c, cs, hcore, _, _⟩ := element_core_head e h.1
    cases rest with
    | nil => simp [elementsBody, hcore]
    | cons next more =>
      have hi := ih h.2
      have e1 : elementsBody (e :: next :: more)
          = e.core ++ (e.after ++ ',' :: elementsText (next :: more)) := rfl
      rw [e1, elementsText_cons, hcore]
      simp only [List.length_append, List.length_cons] at hi ⊢
      omega

/-- The decoding accepts every array of decodable elements, with their values in
order. -/
theorem decodeInts_elementArray (a : ElementArray) (h : a.decodable = true) :
    decodeInts a.text.data = some a.values := by
  simp only [ElementArray.decodable, Bool.and_eq_true] at h
  obtain ⟨⟨⟨hlead, hinner⟩, htrail⟩, hel⟩ := h
  unfold decodeInts
  simp only [ElementArray.text, skipSpace_ws_append _ _ hlead]
  rw [skipSpace_cons_of_not_space _ _ (by decide)]
  simp only [skipSpace_ws_append _ _ hinner]
  cases hi : a.elements with
  | nil =>
    simp only [elementsText, List.nil_append]
    rw [skipSpace_cons_of_not_space _ _ (by decide)]
    simp [skipSpace_ws _ htrail, ElementArray.values, hi]
  | cons e rest =>
    rw [hi] at hel
    have he : e.decodable = true := by
      simp only [List.all_cons, Bool.and_eq_true] at hel
      exact hel.1
    have hb := (element_blanks e he).1
    obtain ⟨c, body, hbody, hcb, hc⟩ := elementsBody_head e rest (']' :: a.trail) he
    have hlen : rest.length < (elementsBody (e :: rest) ++ ']' :: a.trail).length := by
      have := elementsBody_length (e :: rest) hel
      simp only [List.length_cons, List.length_append] at this ⊢
      omega
    have hscan := scanElems_elements rest e a.trail _ hlen hel
    simp only [elementsText_cons, List.append_assoc, skipSpace_ws_append _ _ hb]
    rw [hbody, skipSpace_cons_of_not_space _ _ hc]
    rw [hbody] at hscan
    split
    · next r heq =>
      simp only [List.cons.injEq] at heq
      exact absurd heq.1 hcb
    · rw [hscan]
      simp [skipSpace_ws _ htrail, ElementArray.values, hi]

/-- The decoding accepts the literal `null` and leaves the slice empty. -/
theorem decodeInts_nullText (text : String) (h : IsNullText text) :
    decodeInts text.data = some [] := by
  obtain ⟨lead, trail, hlead, htrail, htext⟩ := h
  rw [htext]
  unfold decodeInts
  rw [skipSpace_ws_append _ _ hlead, skipSpace_cons_of_not_space _ _ (by decide)]
  simp [skipSpace_ws _ htrail]

/-! ### Decoding: what is accepted is decodable -/

/-- The whitespace taken from the front is whitespace. -/
theorem all_takeWhile_space (cs : List Char) : (cs.takeWhile isJSONSpace).all isJSONSpace = true := by
  induction cs with
  | nil => rfl
  | cons c cs ih =>
    rw [List.takeWhile_cons]
    split
    · next hc => simp [hc, ih]
    · rfl

/-- Any text is whitespace followed by what is left after skipping it. -/
theorem skipSpace_split (cs : List Char) :
    ∃ w, w.all isJSONSpace = true ∧ cs = w ++ skipSpace cs :=
  ⟨cs.takeWhile isJSONSpace, all_takeWhile_space cs,
    (List.takeWhile_append_dropWhile isJSONSpace cs).symm⟩

/-- A text of which nothing is left after skipping whitespace is whitespace. -/
theorem all_space_of_skipSpace_nil (cs : List Char) (h : (skipSpace cs).isEmpty = true) :
    cs.all isJSONSpace = true := by
  obtain ⟨w, hw, hcs⟩ := skipSpace_split cs
  rw [List.isEmpty_iff] at h
  rw [h, List.append_nil] at hcs
  rw [hcs]; exact hw

/-- The digits taken from the front are digits. -/
theorem all_takeWhile_digit (cs : List Char) : (cs.takeWhile Char.isDigit).all Char.isDigit = true := by
  induction cs with
  | nil => rfl
  | cons c cs ih =>
    rw [List.takeWhile_cons]
    split
    · next hc => simp [hc, ih]
    · rfl

/-- The digit string `scanInt` accepts. -/
theorem digits_accepted (ds : List Char)
    (h : (if ds.isEmpty = true then (none : Option Unit)
      else if (ds.head? == some '0' && ds.length != 1) = true then none else some ()) = some ()) :
    ds.isEmpty = false ∧ (ds.head? != some '0' || ds.length == 1) = true := by
  by_cases he : ds.isEmpty = true
  · simp [he] at h
  · by_cases hz : (ds.head? == some '0' && ds.length != 1) = true
    · simp [he, hz] at h
    · refine ⟨by simpa using he, ?_⟩
      simp only [Bool.and_eq_true, not_and, Bool.not_eq_true] at hz
      by_cases h0 : ds.head? = some '0'
      · have := hz (by simp [h0])
        simp only [bne_eq_false_iff_eq] at this
        simp [this]
      · simp [h0]

/-- What `scanInt` reads is a well-formed literal in front of the rest. -/
theorem scanInt_sound (cs rest : List Char) (v : Int) (h : scanInt cs = some (v, rest)) :
    ∀ after : List Char, after.all isJSONSpace = true →
      ∃ item : ArrayItem, item.wellFormed = true ∧ item.before = [] ∧ item.after = after ∧
        item.value = v ∧ cs = item.literal ++ rest := by
  intro after hafter
  have key : ∀ (neg : Bool) (body : List Char),
      (if (body.takeWhile Char.isDigit).isEmpty = true then none
        else if ((body.takeWhile Char.isDigit).head? == some '0'
            && (body.takeWhile Char.isDigit).length != 1) = true then none
        else some (if neg = true then -(digitsValue (body.takeWhile Char.isDigit) : Int)
              else (digitsValue (body.takeWhile Char.isDigit) : Int),
            body.dropWhile Char.isDigit)) = some (v, rest) →
      cs = (if neg = true then ['-'] else []) ++ body →
      ∃ item : ArrayItem, item.wellFormed = true ∧ item.before = [] ∧ item.after = after ∧
        item.value = v ∧ cs = item.literal ++ rest := by
    intro neg body hres hcs
    have hacc := digits_accepted (body.takeWhile Char.isDigit) (by
      by_cases he : (body.takeWhile Char.isDigit).isEmpty = true
      · simp [he] at hres
      · by_cases hz : ((body.takeWhile Char.isDigit).head? == some '0'
            && (body.takeWhile Char.isDigit).length != 1) = true
        · simp [he, hz] at hres
        · simp [he, hz])
    have hval : (if neg = true then -(digitsValue (body.takeWhile Char.isDigit) : Int)
        else (digitsValue (body.takeWhile Char.isDigit) : Int)) = v
        ∧ body.dropWhile Char.isDigit = rest := by
      by_cases he : (body.takeWhile Char.isDigit).isEmpty = true
      · simp [he] at hres
      · by_cases hz : ((body.takeWhile Char.isDigit).head? == some '0'
            && (body.takeWhile Char.isDigit).length != 1) = true
        · simp [he, hz] at hres
        · simp only [he, hz, if_false, Bool.false_eq_true, Option.some.injEq,
            Prod.mk.injEq] at hres
          exact hres
    refine ⟨⟨[], neg, body.takeWhile Char.isDigit, after⟩, ?_, rfl, rfl, hval.1, ?_⟩
    · simp only [ArrayItem.wellFormed, List.all_nil, hafter, all_takeWhile_digit, hacc.1,
        hacc.2, Bool.not_false, Bool.and_self]
    · simp only [ArrayItem.literal]
      rw [List.append_assoc, ← hval.2, List.takeWhile_append_dropWhile]
      exact hcs
  by_cases hneg : (cs.head? == some '-') = true
  · apply key true cs.tail
    · simpa [scanInt, hneg] using h
    · cases cs with
      | nil => simp at hneg
      | cons c t =>
        simp only [List.head?_cons, beq_iff_eq, Option.some.injEq] at hneg
        rw [hneg]; rfl
  · apply key false cs
    · simpa [scanInt, hneg] using h
    · rfl



/-- What `scanElem` reads is a decodable element in front of the rest. -/
theorem scanElem_sound (cs rest : List Char) (v : Int) (h : scanElem cs = some (v, rest))
    (after : List Char) (hafter : after.all isJSONSpace = true) :
    ∃ e : ArrayElement, e.decodable = true ∧ e.before = [] ∧ e.after = after ∧
      e.value = v ∧ cs = e.core ++ rest := by
  unfold scanElem at h
  split at h
  · next r =>
    simp only [Option.some.injEq, Prod.mk.injEq] at h
    refine ⟨.null [] after, ?_, rfl, rfl, h.1, ?_⟩
    · simp [ArrayElement.decodable, hafter]
    · rw [← h.2]; rfl
  · split at h
    · next v' rest' hscan =>
      by_cases hr : minInt ≤ v' ∧ v' ≤ maxInt
      · rw [if_pos hr] at h
        simp only [Option.some.injEq, Prod.mk.injEq] at h
        obtain ⟨item, hwf, hb, ha, hv, hcs⟩ := scanInt_sound cs rest' v' hscan after hafter
        refine ⟨.integer item, ?_, hb, ha, by rw [← h.1]; exact hv, by rw [← h.2]; exact hcs⟩
        simp only [ArrayElement.decodable, hwf, hv, hr.1, hr.2, decide_True, Bool.and_self]
      · rw [if_neg hr] at h
        cases h
    · cases h

/-- More whitespace in front changes nothing but the whitespace in front. -/
theorem withBefore_facts (w : List Char) (e : ArrayElement) (hw : w.all isJSONSpace = true)
    (h : e.decodable = true) :
    (e.withBefore w).decodable = true ∧ (e.withBefore w).before = w ++ e.before ∧
      (e.withBefore w).core = e.core ∧ (e.withBefore w).after = e.after ∧
      (e.withBefore w).value = e.value := by
  cases e with
  | integer item =>
    refine ⟨?_, rfl, rfl, rfl, rfl⟩
    simp only [ArrayElement.decodable, ArrayItem.wellFormed, Bool.and_eq_true,
      decide_eq_true_eq] at h
    simp only [ArrayElement.withBefore, ArrayElement.decodable, ArrayItem.wellFormed,
      ArrayItem.value, List.all_append, hw, Bool.and_eq_true, decide_eq_true_eq, true_and]
    exact h
  | null before after =>
    refine ⟨?_, rfl, rfl, rfl, rfl⟩
    simp only [ArrayElement.decodable, Bool.and_eq_true] at h
    simp [ArrayElement.withBefore, ArrayElement.decodable, List.all_append, hw, h.1, h.2]

/-- The text from the first element on does not depend on the whitespace before
it. -/
theorem elementsBody_withBefore (w : List Char) (e : ArrayElement) (rest : List ArrayElement) :
    elementsBody (e.withBefore w :: rest) = elementsBody (e :: rest) := by
  cases e <;> rfl

/-- What `scanElems` reads is a list of decodable elements up to the closing
bracket. -/
theorem scanElems_sound (fuel : Nat) (cs rest : List Char) (vs : List Int)
    (h : scanElems fuel cs = some (vs, rest)) :
    ∃ (e : ArrayElement) (es : List ArrayElement),
      (e :: es).all ArrayElement.decodable = true ∧ e.before = [] ∧
      cs = elementsBody (e :: es) ++ ']' :: rest ∧ vs = (e :: es).map ArrayElement.value := by
  induction fuel generalizing cs vs rest with
  | zero => simp [scanElems] at h
  | succ fuel ih =>
    rw [scanElems] at h
    split at h
    · cases h
    · next v r1 hel =>
      obtain ⟨w, hw, hr1⟩ := skipSpace_split r1
      obtain ⟨e, hdec, hbefore, hafter, hval, hcs⟩ := scanElem_sound cs r1 v hel w hw
      split at h
      · next r2 hsep =>
        split at h
        · next vs' rest'' hrec =>
          simp only [Option.some.injEq, Prod.mk.injEq] at h
          obtain ⟨w2, hw2, hr2⟩ := skipSpace_split r2
          obtain ⟨e', es', hdec', hb', hcs', hvs'⟩ := ih _ _ _ hrec
          simp only [List.all_cons, Bool.and_eq_true] at hdec'
          obtain ⟨hd2, hb2, hc2, ha2, hv2⟩ := withBefore_facts w2 e' hw2 hdec'.1
          refine ⟨e, e'.withBefore w2 :: es', ?_, hbefore, ?_, ?_⟩
          · simp only [List.all_cons, Bool.and_eq_true]
            exact ⟨hdec, hd2, hdec'.2⟩
          · have e1 : elementsBody (e :: e'.withBefore w2 :: es')
                = e.core ++ (e.after ++ ',' :: elementsText (e'.withBefore w2 :: es')) := rfl
            rw [e1, elementsText_cons, elementsBody_withBefore, hb2, hafter, hcs, hr1, hsep,
              hr2, hcs', ← h.2]
            simp only [List.append_assoc, List.cons_append, hb', List.nil_append]
          · rw [← h.1, hvs']
            simp [hval, hv2]
        · cases h
      · next r2 hsep =>
        simp only [Option.some.injEq, Prod.mk.injEq] at h
        refine ⟨e, [], by simpa using hdec, hbefore, ?_, ?_⟩
        · rw [hcs, hr1, hsep, ← h.2]
          simp only [elementsBody, hafter, List.append_nil, List.append_assoc]
        · rw [← h.1]; simp [hval]
      · cases h



/-- What `decodeInts` accepts is the literal `null` or an array of decodable
elements, and the result is the values of the elements. -/
theorem decodeInts_sound (text : String) (values : List Int)
    (h : decodeInts text.data = some values) : DecodesTo text values := by
  obtain ⟨w0, hw0, hcs⟩ := skipSpace_split text.data
  unfold decodeInts at h
  split at h
  · next rest hskip =>
    left
    by_cases he : (skipSpace rest).isEmpty = true
    · rw [if_pos he] at h
      simp only [Option.some.injEq] at h
      refine ⟨⟨w0, rest, hw0, all_space_of_skipSpace_nil rest he, ?_⟩, h.symm⟩
      rw [hskip] at hcs
      exact hcs
    · rw [if_neg he] at h
      cases h
  · next rest hskip =>
    right
    obtain ⟨w1, hw1, hrest⟩ := skipSpace_split rest
    split at h
    · next rest' hclose =>
      by_cases he : (skipSpace rest').isEmpty = true
      · rw [if_pos he] at h
        simp only [Option.some.injEq] at h
        refine ⟨⟨w0, w1, [], rest'⟩, ?_, ?_, ?_⟩
        · simp [ElementArray.decodable, hw0, hw1, all_space_of_skipSpace_nil rest' he]
        · apply String.ext
          simp only [ElementArray.text, elementsText, List.nil_append]
          rw [hcs, hskip, hrest, hclose]
        · rw [← h]; rfl
      · rw [if_neg he] at h
        cases h
    · next hnot =>
      split at h
      · next vs rest' hscan =>
        by_cases he : (skipSpace rest').isEmpty = true
        · rw [if_pos he] at h
          simp only [Option.some.injEq] at h
          obtain ⟨e, es, hdec, hb, hbody, hvs⟩ := scanElems_sound _ _ _ _ hscan
          refine ⟨⟨w0, w1, e :: es, rest'⟩, ?_, ?_, ?_⟩
          · simp only [ElementArray.decodable, hw0, hw1, all_space_of_skipSpace_nil rest' he,
              hdec, Bool.and_self]
          · apply String.ext
            simp only [ElementArray.text, elementsText_cons, hb, List.nil_append]
            rw [hcs, hskip, hrest, hbody]
          · rw [← h, hvs]; rfl
        · rw [if_neg he] at h
          cases h
      · cases h
  · cases h

/-- The decoding accepts exactly the literal `null` and the arrays of integers
within the 64-bit range and `null`s, with the values the elements stand for. -/
theorem decodeInts_eq_some_iff (text : String) (values : List Int) :
    decodeInts text.data = some values ↔ DecodesTo text values := by
  constructor
  · exact decodeInts_sound text values
  · rintro (⟨hnull, rfl⟩ | ⟨a, hdec, rfl, rfl⟩)
    · exact decodeInts_nullText text hnull
    · exact decodeInts_elementArray a hdec

/-- The decoding rejects exactly the texts that are not decodable. -/
theorem decodeInts_eq_none_iff (text : String) :
    decodeInts text.data = none ↔ ¬ IsDecodable text := by
  constructor
  · rintro h ⟨values, hv⟩
    rw [(decodeInts_eq_some_iff text values).2 hv] at h
    cases h
  · intro h
    cases hd : decodeInts text.data with
    | none => rfl
    | some values => exact absurd ⟨values, (decodeInts_eq_some_iff text values).1 hd⟩ h

/-! ### Decoding: arrays of integers in and out of range -/

/-- The text of integer elements is the text of the integers. -/
theorem elementsText_integers (items : List ArrayItem) :
    elementsText (items.map ArrayElement.integer) = itemsText items := by
  induction items with
  | nil => rfl
  | cons item rest ih =>
    cases rest with
    | nil => rfl
    | cons next more =>
      have e1 : elementsText ((item :: next :: more).map ArrayElement.integer)
          = item.text ++ ',' :: elementsText ((next :: more).map ArrayElement.integer) := rfl
      rw [e1, ih]
      rfl

/-- A JSON array of integers within the 64-bit range is decodable, to its
integers. -/
theorem decodesTo_of_intArray (text : String) (values : List Int)
    (h : IsJSONIntArray text values) (hrange : ∀ v ∈ values, minInt ≤ v ∧ v ≤ maxInt) :
    DecodesTo text values := by
  obtain ⟨a, hwf, htext, hvalues⟩ := h
  right
  simp only [ArrayText.wellFormed, Bool.and_eq_true] at hwf
  refine ⟨⟨a.lead, a.inner, a.items.map ArrayElement.integer, a.trail⟩, ?_, ?_, ?_⟩
  · have hel : (a.items.map ArrayElement.integer).all ArrayElement.decodable = true := by
      rw [List.all_eq_true]
      intro e he
      obtain ⟨item, hitem, rfl⟩ := List.mem_map.1 he
      have hw := List.all_eq_true.1 hwf.2 item hitem
      have hr := hrange item.value (by rw [← hvalues]; exact List.mem_map_of_mem _ hitem)
      simp [ArrayElement.decodable, hw, hr.1, hr.2]
    simp only [ElementArray.decodable, hwf.1.1.1, hwf.1.1.2, hwf.1.2, hel, Bool.and_self]
  · rw [← htext]
    apply String.ext
    simp only [ElementArray.text, ArrayText.text, elementsText_integers]
  · rw [← hvalues]
    simp only [ElementArray.values, ArrayText.values, List.map_map]
    rfl

/-- An integer literal outside the 64-bit range is not read. -/
theorem scanElem_literal_out (item : ArrayItem) (rest : List Char)
    (hwf : item.wellFormed = true)
    (hrest : ∀ c, rest.head? = some c → c.isDigit = false)
    (hout : ¬ (minInt ≤ item.value ∧ item.value ≤ maxInt)) :
    scanElem (item.literal ++ rest) = none := by
  obtain ⟨c, cs, hlit, hc⟩ := literal_head item hwf
  have hn := (literal_head_facts c hc).1
  unfold scanElem
  split
  · next r heq =>
    rw [hlit] at heq
    simp only [List.cons_append, List.cons.injEq] at heq
    exact absurd heq.1 hn
  · rw [scanInt_literal item rest hwf hrest]
    simp [hout]

/-- An array of integers one of which is outside the 64-bit range is not read. -/
theorem scanElems_out_of_range (items : List ArrayItem) (item : ArrayItem) (tail : List Char)
    (fuel : Nat) (hwf : (item :: items).all ArrayItem.wellFormed = true)
    (hout : ∃ i ∈ item :: items, ¬ (minInt ≤ i.value ∧ i.value ≤ maxInt)) :
    scanElems fuel (itemsBody (item :: items) ++ ']' :: tail) = none := by
  induction items generalizing item fuel with
  | nil =>
    cases fuel with
    | zero => rfl
    | succ fuel =>
      obtain ⟨i, hi, hbad⟩ := hout
      simp only [List.mem_singleton] at hi
      subst hi
      simp only [List.all_cons, List.all_nil, Bool.and_true] at hwf
      have hw : i.after.all isJSONSpace = true := by
        simp only [ArrayItem.wellFormed, Bool.and_eq_true] at hwf
        exact hwf.1.1.1.2
      simp only [itemsBody, List.append_nil, List.append_assoc]
      rw [scanElems, scanElem_literal_out i _ hwf (after_head _ ']' tail hw (by decide)) hbad]
  | cons next more ih =>
    cases fuel with
    | zero => rfl
    | succ fuel =>
      simp only [List.all_cons, Bool.and_eq_true] at hwf
      have hw : item.after.all isJSONSpace = true := by
        have := hwf.1
        simp only [ArrayItem.wellFormed, Bool.and_eq_true] at this
        exact this.1.1.1.2
      have hwn : next.before.all isJSONSpace = true := by
        have := hwf.2.1
        simp only [ArrayItem.wellFormed, Bool.and_eq_true] at this
        exact this.1.1.1.1
      have hform : itemsBody (item :: next :: more) ++ ']' :: tail
          = item.literal ++ (item.after ++ ',' :: (next.before
              ++ (itemsBody (next :: more) ++ ']' :: tail))) := by
        have e1 : itemsBody (item :: next :: more)
            = item.literal ++ (item.after ++ ',' :: itemsText (next :: more)) := rfl
        rw [e1, itemsText_cons]
        simp only [List.append_assoc, List.cons_append]
      rw [hform, scanElems]
      by_cases hbad : minInt ≤ item.value ∧ item.value ≤ maxInt
      · have hrest : ∃ i ∈ next :: more, ¬ (minInt ≤ i.value ∧ i.value ≤ maxInt) := by
          obtain ⟨i, hi, hib⟩ := hout
          rcases List.mem_cons.1 hi with rfl | hi
          · exact absurd hbad hib
          · exact ⟨i, hi, hib⟩
        have hih := ih next fuel
          (by simp only [List.all_cons, Bool.and_eq_true]; exact hwf.2) hrest
        rw [scanElem_literal item _ hwf.1 (after_head _ ',' _ hw (by decide)) hbad]
        simp only [skipSpace_ws_append _ _ hw]
        rw [skipSpace_cons_of_not_space _ _ (by decide)]
        simp only [skipSpace_ws_append _ _ hwn]
        obtain ⟨c, cs, hlit, hc⟩ := literal_head next hwf.2.1
        obtain ⟨body, hbody⟩ : ∃ body, itemsBody (next :: more) ++ ']' :: tail = c :: body := by
          simp only [itemsBody, hlit, List.cons_append]
          exact ⟨_, rfl⟩
        rw [hbody, skipSpace_cons_of_not_space _ _ (literal_head_facts c hc).2.2, ← hbody, hih]
      · rw [scanElem_literal_out item _ hwf.1 (after_head _ ',' _ hw (by decide)) hbad]

/-- A JSON array of integers one of which is outside the 64-bit range is
rejected. -/
theorem decodeInts_out_of_range (a : ArrayText) (hwf : a.wellFormed = true)
    (hout : ∃ v ∈ a.values, ¬ (minInt ≤ v ∧ v ≤ maxInt)) :
    decodeInts a.text.data = none := by
  simp only [ArrayText.wellFormed, Bool.and_eq_true] at hwf
  obtain ⟨⟨⟨hlead, hinner⟩, htrail⟩, hitems⟩ := hwf
  unfold decodeInts
  simp only [ArrayText.text, skipSpace_ws_append _ _ hlead]
  rw [skipSpace_cons_of_not_space _ _ (by decide)]
  simp only [skipSpace_ws_append _ _ hinner]
  cases hi : a.items with
  | nil =>
    obtain ⟨v, hv, _⟩ := hout
    simp [ArrayText.values, hi] at hv
  | cons item rest =>
    rw [hi] at hitems
    have hwfi : item.wellFormed = true := by
      simp only [List.all_cons, Bool.and_eq_true] at hitems
      exact hitems.1
    have hb : item.before.all isJSONSpace = true := by
      simp only [ArrayItem.wellFormed, Bool.and_eq_true] at hwfi
      exact hwfi.1.1.1.1
    obtain ⟨c, cs, hlit, hc⟩ := literal_head item hwfi
    obtain ⟨body, hbody⟩ : ∃ body, itemsBody (item :: rest) ++ ']' :: a.trail = c :: body := by
      simp only [itemsBody, hlit, List.cons_append]
      exact ⟨_, rfl⟩
    have hbad : ∃ i ∈ item :: rest, ¬ (minInt ≤ i.value ∧ i.value ≤ maxInt) := by
      obtain ⟨v, hv, hvb⟩ := hout
      simp only [ArrayText.values, hi, List.mem_map] at hv
      obtain ⟨i, hi', rfl⟩ := hv
      exact ⟨i, hi', hvb⟩
    have hscan := fun fuel => scanElems_out_of_range rest item a.trail fuel hitems hbad
    simp only [itemsText_cons, List.append_assoc, skipSpace_ws_append _ _ hb]
    rw [hbody, skipSpace_cons_of_not_space _ _ (literal_head_facts c hc).2.2]
    have hcb : c ≠ ']' := (literal_head_facts c hc).2.1
    split
    · next r heq =>
      simp only [List.cons.injEq] at heq
      exact absurd heq.1 hcb
    · rw [← hbody, hscan]

/-- A JSON array of integers is decodable exactly when its integers are within
the 64-bit range. -/
theorem intArray_decodable_iff (text : String) (values : List Int)
    (h : IsJSONIntArray text values) :
    IsDecodable text ↔ ∀ v ∈ values, minInt ≤ v ∧ v ≤ maxInt := by
  constructor
  · intro hdec
    by_contra hnot
    push_neg at hnot
    obtain ⟨v, hv, hvb⟩ := hnot
    obtain ⟨a, hwf, htext, hvalues⟩ := h
    have hnone := decodeInts_out_of_range a hwf
      ⟨v, by rw [hvalues]; exact hv, fun hr => absurd hr.2 (by have := hvb hr.1; omega)⟩
    rw [htext] at hnone
    exact (decodeInts_eq_none_iff text).1 hnone hdec
  · intro hrange
    exact ⟨values, decodesTo_of_intArray text values h hrange⟩

/-- Every character of the elements of an array of integers is whitespace, a
digit, a minus sign or a comma. -/
theorem itemsText_chars (items : List ArrayItem) (h : items.all ArrayItem.wellFormed = true) :
    ∀ c ∈ itemsText items, isJSONSpace c = true ∨ c.isDigit = true ∨ c = '-' ∨ c = ',' := by
  induction items with
  | nil => intro c hc; simp [itemsText] at hc
  | cons item rest ih =>
    simp only [List.all_cons, Bool.and_eq_true] at h
    have hitem : ∀ c ∈ item.text,
        isJSONSpace c = true ∨ c.isDigit = true ∨ c = '-' ∨ c = ',' := by
      intro c hc
      have hw := h.1
      simp only [ArrayItem.wellFormed, Bool.and_eq_true, List.all_eq_true] at hw
      simp only [ArrayItem.text, ArrayItem.literal, List.mem_append] at hc
      rcases hc with hc | (hc | hc) | hc
      · exact Or.inl (hw.1.1.1.1 c hc)
      · split at hc
        · simp only [List.mem_singleton] at hc
          exact Or.inr (Or.inr (Or.inl hc))
        · cases hc
      · exact Or.inr (Or.inl (hw.1.2 c hc))
      · exact Or.inl (hw.1.1.1.2 c hc)
    cases rest with
    | nil => exact hitem
    | cons next more =>
      intro c hc
      have e1 : itemsText (item :: next :: more)
          = item.text ++ ',' :: itemsText (next :: more) := rfl
      rw [e1, List.mem_append, List.mem_cons] at hc
      rcases hc with hc | rfl | hc
      · exact hitem c hc
      · exact Or.inr (Or.inr (Or.inr rfl))
      · exact ih h.2 c hc

/-- A JSON array of integers has no letter `n`. -/
theorem intArray_no_n (text : String) (values : List Int) (h : IsJSONIntArray text values) :
    'n' ∉ text.data := by
  obtain ⟨a, hwf, htext, _⟩ := h
  rw [← htext]
  simp only [ArrayText.wellFormed, Bool.and_eq_true, List.all_eq_true] at hwf
  intro hmem
  simp only [ArrayText.text, List.mem_append, List.mem_cons] at hmem
  have hsp : ∀ w : List Char, (∀ x ∈ w, isJSONSpace x = true) → 'n' ∉ w := by
    intro w hw hn
    exact absurd (hw 'n' hn) (by decide)
  rcases hmem with hm | hm | hm | hm | hm | hm
  · exact hsp _ hwf.1.1.1 hm
  · exact absurd hm (by decide)
  · exact hsp _ hwf.1.1.2 hm
  · have := itemsText_chars a.items (List.all_eq_true.2 hwf.2) 'n' hm
    revert this
    decide
  · exact absurd hm (by decide)
  · exact hsp _ hwf.1.2 hm

/-! ### Flag reconstruction: the claims -/

/-- No token `--name=...` is returned when no changed flag bears that name, flag
names being free of `=`. -/
theorem not_mem_tokens_of_name (flags : List Flag) (name value : String)
    (hname : '=' ∉ name.data) (heq : ∀ g ∈ flags, '=' ∉ g.Name.data)
    (hother : ∀ g ∈ flags, g.Changed = true → g.Name ≠ name) :
    "--" ++ name ++ "=" ++ value ∉ (parseFlagSet flags).1 := by
  intro h
  obtain ⟨g, hg, ht⟩ := mem_parseFlagSet flags _ h
  obtain ⟨hc, v, hv⟩ := mem_flagTokens g _ ht
  exact hother g hg hc (token_injective _ _ _ _ hname (heq g hg) hv).1.symm

/-- C4 (amended): in a flag set whose names are pairwise distinct and free of
`=`, the returned list holds no token `--name=...` for an unchanged flag, and
for a changed flag that is neither `intSlice` nor `int32Slice` and that is
reached with no error pending (no flag enumerated before it failed) it holds
the token `--name=value` exactly once. -/
theorem parseFlags_changed_tokens (cmd : Command)
    (hnames : (cmd.Flags.map Flag.Name).Nodup)
    (heq : ∀ f ∈ cmd.Flags, '=' ∉ f.Name.data) :
    (∀ f ∈ cmd.Flags, f.Changed = false →
      ∀ value, "--" ++ f.Name ++ "=" ++ value ∉ (parseFlags cmd).1) ∧
    (∀ (pre post : List Flag) (f : Flag), cmd.Flags = pre ++ f :: post →
      (parseFlagSet pre).2 = none → f.Changed = true →
      f.ValueType ≠ "intSlice" → f.ValueType ≠ "int32Slice" →
      (parseFlags cmd).1.count ("--" ++ f.Name ++ "=" ++ f.ValueString) = 1) := by
  constructor
  · intro f hf hc value
    apply not_mem_tokens_of_name cmd.Flags f.Name value (heq f hf) heq
    intro g hg hgc hname
    have := List.inj_on_of_nodup_map hnames hg hf hname
    rw [this, hc] at hgc
    cases hgc
  · intro pre post f hflags hpre hc h1 h2
    rw [hflags] at hnames heq
    rw [List.map_append, List.map_cons, List.nodup_middle, List.nodup_cons] at hnames
    have hout : ∀ g, g ∈ pre ∨ g ∈ post → g.Name ≠ f.Name := by
      intro g hg hname
      apply hnames.1
      rw [← hname, List.mem_append]
      rcases hg with hg | hg
      · exact Or.inl (List.mem_map_of_mem _ hg)
      · exact Or.inr (List.mem_map_of_mem _ hg)
    have hf : '=' ∉ f.Name.data := heq f (by simp)
    have h0 : ∀ part : List Flag, (∀ g ∈ part, g ∈ pre ∨ g ∈ post) →
        "--" ++ f.Name ++ "=" ++ f.ValueString ∉ (parseFlagSet part).1 := by
      intro part hpart
      apply not_mem_tokens_of_name part f.Name f.ValueString hf
      · intro g hg
        apply heq g
        rcases hpart g hg with h | h <;> simp [h]
      · intro g hg _
        exact hout g (hpart g hg)
    have hp := h0 pre (fun g hg => Or.inl hg)
    have hq := h0 post (fun g hg => Or.inr hg)
    obtain ⟨htok, herr⟩ := flag_plain f hc h1 h2
    rw [parseFlags, hflags, parseFlagSet_append pre (f :: post) hpre, parseFlagSet_cons, herr,
      htok]
    simp only [List.count_append, List.count_cons_self, List.count_nil,
      List.count_eq_zero_of_not_mem hp, List.count_eq_zero_of_not_mem hq, List.singleton_append]



/-- C4 as stated fails: a changed plain flag enumerated after a failing
integer-list flag gets no token at all, and two flags `a` (value `b=c`) and
`a=b` (value `c`) yield the same token twice. -/
theorem parseFlags_token_count_counterexample :
    (parseFlags (.root "kafkactl"
        [⟨"partitions", true, "intSlice", "not-json"⟩, ⟨"output", true, "string", "json"⟩])).1.count
      "--output=json" = 0 ∧
    ((parseFlags (.root "kafkactl"
        [⟨"a", true, "string", "b=c"⟩, ⟨"a=b", true, "string", "c"⟩])).2 = none ∧
      (parseFlags (.root "kafkactl"
        [⟨"a", true, "string", "b=c"⟩, ⟨"a=b", true, "string", "c"⟩])).1.count "--a=b=c" = 2) := by
  decide

/-- Witness of `parseFlags_changed_tokens` on a flag set with one changed and one
unchanged flag. -/
theorem parseFlags_changed_tokens_witness :
    "--verbose=true" ∉ (parseFlags (.root "kafkactl"
        [⟨"output", true, "string", "json"⟩, ⟨"verbose", false, "bool", "true"⟩])).1 ∧
    (parseFlags (.root "kafkactl"
        [⟨"output", true, "string", "json"⟩, ⟨"verbose", false, "bool", "true"⟩])).1.count
      "--output=json" = 1 :=
  ⟨(parseFlags_changed_tokens
      (.root "kafkactl" [⟨"output", true, "string", "json"⟩, ⟨"verbose", false, "bool", "true"⟩])
      (by decide) (by decide)).1 ⟨"verbose", false, "bool", "true"⟩ (by decide) rfl "true",
   (parseFlags_changed_tokens
      (.root "kafkactl" [⟨"output", true, "string", "json"⟩, ⟨"verbose", false, "bool", "true"⟩])
      (by decide) (by decide)).2 [] [⟨"verbose", false, "bool", "true"⟩]
      ⟨"output", true, "string", "json"⟩ rfl rfl rfl (by decide) (by decide)⟩

/-- The text `[1,2,3]` is a JSON array of integers holding 1, 2, 3. -/
theorem isJSONIntArray_123 : IsJSONIntArray "[1,2,3]" [1, 2, 3] :=
  ⟨⟨[], [], [⟨[], false, ['1'], []⟩, ⟨[], false, ['2'], []⟩, ⟨[], false, ['3'], []⟩], []⟩,
    by decide, by decide, by decide⟩

/-- The text `null` is not a JSON array: it has no opening bracket. -/
theorem not_isJSONIntArray_null (values : List Int) : ¬ IsJSONIntArray "null" values := by
  rintro ⟨a, _, htext, _⟩
  have hmem : '[' ∈ a.text.data := by simp [ArrayText.text]
  rw [htext] at hmem
  exact absurd hmem (by decide)

/-- C5 (amended): a changed `intSlice` or `int32Slice` flag that is reached with
no error pending and whose rendering is a JSON array of integers within the
64-bit range contributes exactly the tokens `--name=v1`, ..., `--name=vn`, in
array order and contiguous between the tokens of the flags before it and the
tokens of the flags after it; for the rendering `[1,2,3]` these are `--name=1`,
`--name=2`, `--name=3`. -/
theorem parseFlags_intSlice_tokens (cmd : Command) (pre post : List Flag) (f : Flag)
    (hflags : cmd.Flags = pre ++ f :: post) (hpre : (parseFlagSet pre).2 = none)
    (hc : f.Changed = true) (ht : f.ValueType = "intSlice" ∨ f.ValueType = "int32Slice") :
    (∀ values : List Int, IsJSONIntArray f.ValueString values →
      (∀ v ∈ values, minInt ≤ v ∧ v ≤ maxInt) →
      flagTokens f = values.map (fun v => "--" ++ f.Name ++ "=" ++ itoa v) ∧
      (parseFlags cmd).1 = (parseFlagSet pre).1
        ++ values.map (fun v => "--" ++ f.Name ++ "=" ++ itoa v) ++ (parseFlagSet post).1) ∧
    (f.ValueString = "[1,2,3]" →
      (parseFlags cmd).1 = (parseFlagSet pre).1
        ++ ["--" ++ f.Name ++ "=1", "--" ++ f.Name ++ "=2", "--" ++ f.Name ++ "=3"]
        ++ (parseFlagSet post).1) := by
  have main : ∀ values : List Int, IsJSONIntArray f.ValueString values →
      (∀ v ∈ values, minInt ≤ v ∧ v ≤ maxInt) →
      flagTokens f = values.map (fun v => "--" ++ f.Name ++ "=" ++ itoa v) ∧
      (parseFlags cmd).1 = (parseFlagSet pre).1
        ++ values.map (fun v => "--" ++ f.Name ++ "=" ++ itoa v) ++ (parseFlagSet post).1 := by
    rintro values ⟨a, hwf, htext, hvalues⟩ hrange
    have hdec : decodeInts f.ValueString.data = some values := by
      rw [← htext, ← hvalues]
      exact decodeInts_arrayText a hwf (by rw [hvalues]; exact hrange)
    obtain ⟨htok, herr⟩ := flag_ints_ok f hc ht values hdec
    refine ⟨htok, ?_⟩
    rw [parseFlags, hflags, parseFlagSet_append pre (f :: post) hpre, parseFlagSet_cons, herr,
      htok]
    simp
  refine ⟨main, fun hs => ?_⟩
  have h := (main [1, 2, 3] (by rw [hs]; exact isJSONIntArray_123) (by decide)).2
  have e1 : "=" ++ itoa 1 = "=1" := by decide
  have e2 : "=" ++ itoa 2 = "=2" := by decide
  have e3 : "=" ++ itoa 3 = "=3" := by decide
  rw [h]
  simp only [List.map_cons, List.map_nil, String.append_assoc, e1, e2, e3]



/-- C5 as stated fails: an integer-list flag with the rendering `[1,2,3]` gets
no token when a flag enumerated before it failed to parse, and a JSON array
holding the integer 2^63 is rejected instead of yielding a token. -/
theorem parseFlags_intSlice_counterexample :
    (IsJSONIntArray "[1,2,3]" [1, 2, 3] ∧
      parseFlags (.root "kafkactl"
        [⟨"partitions", true, "intSlice", "not-json"⟩, ⟨"replicas", true, "intSlice", "[1,2,3]"⟩])
        = ([], some (.unmarshal "not-json"))) ∧
    (IsJSONIntArray "[9223372036854775808]" [9223372036854775808] ∧
      parseFlags (.root "kafkactl" [⟨"offsets", true, "intSlice", "[9223372036854775808]"⟩])
        = ([], some (.unmarshal "[9223372036854775808]"))) :=
  ⟨⟨⟨⟨[], [], [⟨[], false, ['1'], []⟩, ⟨[], false, ['2'], []⟩, ⟨[], false, ['3'], []⟩], []⟩,
      by decide, by decide, by decide⟩, by decide⟩,
   ⟨⟨⟨[], [], [⟨[], false, "9223372036854775808".data, []⟩], []⟩,
      by decide, by decide, by decide⟩, by decide⟩⟩

/-- Witness of `parseFlags_intSlice_tokens`: an array written with blanks between
two plain flags, and the rendering `[1,2,3]`. -/
theorem parseFlags_intSlice_tokens_witness :
    (parseFlags (.root "kafkactl"
        [⟨"output", true, "string", "json"⟩, ⟨"partitions", true, "int32Slice", " [ 4 , -5 ] "⟩,
          ⟨"verbose", true, "bool", "true"⟩])).1
      = ["--output=json"] ++ ["--partitions=4", "--partitions=-5"] ++ ["--verbose=true"] ∧
    (parseFlags (.root "kafkactl" [⟨"partitions", true, "intSlice", "[1,2,3]"⟩])).1
      = ["--partitions=1", "--partitions=2", "--partitions=3"] :=
  ⟨Eq.trans ((parseFlags_intSlice_tokens
      (.root "kafkactl"
        [⟨"output", true, "string", "json"⟩, ⟨"partitions", true, "int32Slice", " [ 4 , -5 ] "⟩,
          ⟨"verbose", true, "bool", "true"⟩])
      [⟨"output", true, "string", "json"⟩] [⟨"verbose", true, "bool", "true"⟩]
      ⟨"partitions", true, "int32Slice", " [ 4 , -5 ] "⟩ rfl (by decide) rfl (Or.inr rfl)).1
      [4, -5]
      ⟨⟨[' '], [' '], [⟨[], false, ['4'], [' ']⟩, ⟨[' '], true, ['5'], [' ']⟩], [' ']⟩,
        by decide, by decide, by decide⟩
      (by decide)).2 (by decide),
   Eq.trans ((parseFlags_intSlice_tokens
      (.root "kafkactl" [⟨"partitions", true, "intSlice", "[1,2,3]"⟩])
      [] [] ⟨"partitions", true, "intSlice", "[1,2,3]"⟩ rfl rfl rfl (Or.inl rfl)).2 rfl)
      (by decide)⟩



/-- C6 as stated fails in both directions: the renderings `null` and `[null]`
are not JSON arrays of integers, yet a changed `intSlice` flag bearing one of
them causes no error; the rendering `[9223372036854775808]` is a JSON array of
integers, yet it causes an error. -/
theorem parseFlags_error_counterexample :
    ((∀ values, ¬ IsJSONIntArray "null" values) ∧
      parseFlags (.root "kafkactl" [⟨"partitions", true, "intSlice", "null"⟩]) = ([], none)) ∧
    ((∀ values, ¬ IsJSONIntArray "[null]" values) ∧
      parseFlags (.root "kafkactl" [⟨"partitions", true, "intSlice", "[null]"⟩])
        = (["--partitions=0"], none)) ∧
    (IsJSONIntArray "[9223372036854775808]" [9223372036854775808] ∧
      (parseFlags (.root "kafkactl"
        [⟨"partitions", true, "intSlice", "[9223372036854775808]"⟩])).2
        = some (.unmarshal "[9223372036854775808]")) :=
  ⟨⟨not_isJSONIntArray_null, by decide⟩,
   ⟨fun values h => absurd (by decide : 'n' ∈ "[null]".data) (intArray_no_n _ values h),
    by decide⟩,
   ⟨⟨⟨[], [], [⟨[], false, "9223372036854775808".data, []⟩], []⟩,
      by decide, by decide, by decide⟩, by decide⟩⟩


/-- A changed list flag whose value is the literal `null` contributes neither a
token nor an error. -/
theorem flag_null (f : Flag) (hc : f.Changed = true)
    (ht : f.ValueType = "intSlice" ∨ f.ValueType = "int32Slice")
    (hnull : IsNullText f.ValueString) : flagTokens f = [] ∧ flagError f = none := by
  have h := flag_ints_ok f hc ht [] (decodeInts_nullText f.ValueString hnull)
  simpa using h


/-- An unchanged flag can be taken out of the flag set without changing the
result. -/
theorem parseFlagSet_remove_unchanged (pre post : List Flag) (f : Flag)
    (hc : f.Changed = false) :
    parseFlagSet (pre ++ f :: post) = parseFlagSet (pre ++ post) := by
  have hstep : parseFlagSet (f :: post) = parseFlagSet post := by
    rw [parseFlagSet_cons, (flag_unchanged f hc).1, (flag_unchanged f hc).2]
    simp
  cases hp : (parseFlagSet pre).2 with
  | none => rw [parseFlagSet_append pre _ hp, parseFlagSet_append pre _ hp, hstep]
  | some e => rw [parseFlagSet_append_failed pre _ e hp, parseFlagSet_append_failed pre _ e hp]

/-- C6 (amended): `parseFlags` returns an error exactly when some changed
`intSlice` or `int32Slice` flag has a rendering that is neither the JSON
literal `null` nor a JSON array whose elements are integers within the 64-bit
range or `null`. So `not-json` causes an error, a JSON array of integers causes
one exactly when one of its integers is outside the 64-bit range, and the
literal `null` causes none and yields no tokens. An unchanged flag never
matters for the result, whatever its value; a failing flag that is reached
with no error pending contributes no token, and the result is the tokens of
the flags before it together with its error. -/
theorem parseFlags_error_iff (cmd : Command) :
    ((parseFlags cmd).2 ≠ none ↔
      ∃ f ∈ cmd.Flags, f.Changed = true ∧
        (f.ValueType = "intSlice" ∨ f.ValueType = "int32Slice") ∧
        ¬ IsDecodable f.ValueString) ∧
    ¬ IsDecodable "not-json" ∧
    (∀ (text : String) (values : List Int), IsJSONIntArray text values →
      (IsDecodable text ↔ ∀ v ∈ values, minInt ≤ v ∧ v ≤ maxInt)) ∧
    (∀ text : String, IsNullText text → IsDecodable text) ∧
    (∀ f : Flag, f.Changed = true →
      (f.ValueType = "intSlice" ∨ f.ValueType = "int32Slice") →
      IsNullText f.ValueString → flagTokens f = [] ∧ flagError f = none) ∧
    (∀ (pre post : List Flag) (f : Flag), cmd.Flags = pre ++ f :: post → f.Changed = false →
      parseFlags cmd = parseFlagSet (pre ++ post)) ∧
    (∀ (pre post : List Flag) (f : Flag), cmd.Flags = pre ++ f :: post →
      (parseFlagSet pre).2 = none → f.Changed = true →
      (f.ValueType = "intSlice" ∨ f.ValueType = "int32Slice") →
      ¬ IsDecodable f.ValueString →
      flagTokens f = [] ∧
      parseFlags cmd = ((parseFlagSet pre).1, some (.unmarshal f.ValueString))) := by
  refine ⟨?_, ?_, ?_, ?_, ?_, ?_, ?_⟩
  · rw [parseFlags, parseFlagSet_error_iff]
    constructor
    · rintro ⟨f, hf, h⟩
      obtain ⟨hc, ht, hd⟩ := (flagError_iff f).1 h
      exact ⟨f, hf, hc, ht, (decodeInts_eq_none_iff _).1 hd⟩
    · rintro ⟨f, hf, hc, ht, hd⟩
      exact ⟨f, hf, (flagError_iff f).2 ⟨hc, ht, (decodeInts_eq_none_iff _).2 hd⟩⟩
  · exact (decodeInts_eq_none_iff "not-json").1 (by decide)
  · exact fun text values h => intArray_decodable_iff text values h
  · exact fun text h => ⟨[], Or.inl ⟨h, rfl⟩⟩
  · exact fun f hc ht hnull => flag_null f hc ht hnull
  · intro pre post f hflags hc
    rw [parseFlags, hflags, parseFlagSet_remove_unchanged pre post f hc]
  · intro pre post f hflags hpre hc ht hd
    obtain ⟨htok, he⟩ := flag_ints_error f hc ht ((decodeInts_eq_none_iff _).2 hd)
    refine ⟨htok, ?_⟩
    rw [parseFlags, hflags, parseFlagSet_append pre _ hpre, parseFlagSet_cons, he, htok]
    simp

/-- Witness of `parseFlags_error_iff`: a failing flag after a plain flag and an
unchanged list flag with a bad value; arrays within and outside the range; the
literal `null` with whitespace around. -/
theorem parseFlags_error_iff_witness :
    (parseFlags (.root "kafkactl"
        [⟨"output", true, "string", "json"⟩, ⟨"replicas", false, "intSlice", "not-json"⟩,
          ⟨"partitions", true, "intSlice", "not-json"⟩,
          ⟨"verbose", true, "bool", "true"⟩])).2 ≠ none ∧
    parseFlags (.root "kafkactl"
        [⟨"output", true, "string", "json"⟩, ⟨"replicas", false, "intSlice", "not-json"⟩,
          ⟨"partitions", true, "intSlice", "not-json"⟩, ⟨"verbose", true, "bool", "true"⟩])
      = (["--output=json"], some (.unmarshal "not-json")) ∧
    parseFlags (.root "kafkactl"
        [⟨"output", true, "string", "json"⟩, ⟨"replicas", false, "intSlice", "not-json"⟩])
      = (["--output=json"], none) ∧
    IsDecodable "[1,2,3]" ∧
    ¬ IsDecodable "[9223372036854775808]" ∧
    IsDecodable " null " ∧
    (flagTokens ⟨"partitions", true, "int32Slice", " null "⟩ = [] ∧
      flagError ⟨"partitions", true, "int32Slice", " null "⟩ = none) :=
  ⟨(parseFlags_error_iff (.root "kafkactl"
        [⟨"output", true, "string", "json"⟩, ⟨"replicas", false, "intSlice", "not-json"⟩,
          ⟨"partitions", true, "intSlice", "not-json"⟩, ⟨"verbose", true, "bool", "true"⟩])).1.2
      ⟨⟨"partitions", true, "intSlice", "not-json"⟩, by decide, rfl, Or.inl rfl,
        (parseFlags_error_iff (.root "kafkactl" [])).2.1⟩,
   Eq.trans
    ((parseFlags_error_iff (.root "kafkactl"
        [⟨"output", true, "string", "json"⟩, ⟨"replicas", false, "intSlice", "not-json"⟩,
          ⟨"partitions", true, "intSlice", "not-json"⟩,
          ⟨"verbose", true, "bool", "true"⟩])).2.2.2.2.2.2
      [⟨"output", true, "string", "json"⟩, ⟨"replicas", false, "intSlice", "not-json"⟩]
      [⟨"verbose", true, "bool", "true"⟩] ⟨"partitions", true, "intSlice", "not-json"⟩
      rfl (by decide) rfl (Or.inl rfl) (parseFlags_error_iff (.root "kafkactl" [])).2.1).2
    (by decide),
   Eq.trans
    ((parseFlags_error_iff (.root "kafkactl"
        [⟨"output", true, "string", "json"⟩,
          ⟨"replicas", false, "intSlice", "not-json"⟩])).2.2.2.2.2.1
      [⟨"output", true, "string", "json"⟩] [] ⟨"replicas", false, "intSlice", "not-json"⟩
      rfl rfl)
    (by decide),
   ((parseFlags_error_iff (.root "kafkactl" [])).2.2.1 "[1,2,3]" [1, 2, 3]
      isJSONIntArray_123).2 (by decide),
   fun h => absurd
    (((parseFlags_error_iff (.root "kafkactl" [])).2.2.1 "[9223372036854775808]"
      [9223372036854775808]
      ⟨⟨[], [], [⟨[], false, "9223372036854775808".data, []⟩], []⟩,
        by decide, by decide, by decide⟩).1 h 9223372036854775808 (by simp))
    (by decide),
   (parseFlags_error_iff (.root "kafkactl" [])).2.2.2.1 " null "
      ⟨[' '], [' '], rfl, rfl, rfl⟩,
   (parseFlags_error_iff (.root "kafkactl" [])).2.2.2.2.1
      ⟨"partitions", true, "int32Slice", " null "⟩ rfl (Or.inr rfl)
      ⟨[' '], [' '], rfl, rfl, rfl⟩⟩

/-! ### Dispatch -/

/-- Validation hands the receiver back as it was. -/
theorem initialize_receiver (operation : Operation) :
    ( Operation.initialize operation).1 = operation := by
  unfold Operation.initialize
  split
  · rfl
  · split
    · rfl
    · split <;> rfl

/-- `Run` when validation and flag reconstruction both pass. -/
theorem Run_of_valid (exec : Executor) (operation : Operation) (cmd : Command)
    (args : List String) (hinit : ( Operation.initialize operation).2 = none)
    (hflags : (parseFlags cmd).2 = none) :
    Operation.Run exec operation cmd args =
      ⟨operation,
        [⟨"scratch", "/kafkactl", parseCompleteCommand cmd [] ++ args ++ (parseFlags cmd).1,
          parsePodEnvironment operation.context⟩],
        exec operation.context
          ⟨"scratch", "/kafkactl", parseCompleteCommand cmd [] ++ args ++ (parseFlags cmd).1,
            parsePodEnvironment operation.context⟩⟩ := by
  have hi : Operation.initialize operation = (operation, none) := by
    exact Prod.ext (initialize_receiver operation) hinit
  have hpf : parseFlags cmd = ((parseFlags cmd).1, none) := by rw [← hflags]
  unfold Operation.Run
  rw [hi]
  simp only
  rw [hpf]

/-- `Run` when validation fails. -/
theorem Run_of_invalid (exec : Executor) (operation : Operation) (cmd : Command)
    (args : List String) (e : GoError) (hinit : ( Operation.initialize operation).2 = some e) :
    Operation.Run exec operation cmd args = ⟨operation, [], some e⟩ := by
  have hi : Operation.initialize operation = (operation, some e) := by
    exact Prod.ext (initialize_receiver operation) hinit
  unfold Operation.Run
  rw [hi]

/-- `Run` when validation passes and flag reconstruction fails. -/
theorem Run_of_flag_error (exec : Executor) (operation : Operation) (cmd : Command)
    (args : List String) (e : GoError) (hinit : ( Operation.initialize operation).2 = none)
    (hflags : (parseFlags cmd).2 = some e) :
    Operation.Run exec operation cmd args = ⟨operation, [], some e⟩ := by
  have hi : Operation.initialize operation = (operation, none) := by
    exact Prod.ext (initialize_receiver operation) hinit
  have hpf : parseFlags cmd = ((parseFlags cmd).1, some e) := by rw [← hflags]
  unfold Operation.Run
  rw [hi]
  simp only
  rw [hpf]

/-- C9: on a valid context and a command whose flags reconstruct, `Run` makes
exactly one executor call, with image `scratch`, entry point `/kafkactl`, the
argument vector path ++ positional arguments ++ flag tokens and the
environment of the context, and returns what that call returns; for the path
`get topics`, the changed flag `--output=json` and the argument `my-topic` the
vector is `get topics my-topic --output=json`. -/
theorem Run_dispatch (exec : Executor) (operation : Operation) (cmd : Command)
    (args : List String)
    (hE : operation.context.Kubernetes.Enabled = true)
    (hK : operation.context.Kubernetes.KubeContext ≠ "")
    (hN : operation.context.Kubernetes.Namespace ≠ "") :
    ((parseFlags cmd).2 = none →
      Operation.Run exec operation cmd args =
        ⟨operation,
          [⟨"scratch", "/kafkactl", parseCompleteCommand cmd [] ++ args ++ (parseFlags cmd).1,
            parsePodEnvironment operation.context⟩],
          exec operation.context
            ⟨"scratch", "/kafkactl", parseCompleteCommand cmd [] ++ args ++ (parseFlags cmd).1,
              parsePodEnvironment operation.context⟩⟩) ∧
    (∀ (top : String) (f0 f1 : List Flag),
      Operation.Run exec operation
          (.sub "topics" [⟨"output", true, "string", "json"⟩] (.sub "get" f1 (.root top f0)))
          ["my-topic"] =
        ⟨operation,
          [⟨"scratch", "/kafkactl", ["get", "topics", "my-topic", "--output=json"],
            parsePodEnvironment operation.context⟩],
          exec operation.context
            ⟨"scratch", "/kafkactl", ["get", "topics", "my-topic", "--output=json"],
              parsePodEnvironment operation.context⟩⟩) := by
  have hinit : ( Operation.initialize operation).2 = none := by
    simp [ Operation.initialize, hE, hK, hN]
  refine ⟨fun hflags => Run_of_valid exec operation cmd args hinit hflags, fun top f0 f1 => ?_⟩
  have hnone : (parseFlags
      (.sub "topics" [⟨"output", true, "string", "json"⟩] (.sub "get" f1 (.root top f0)))).2
      = none := by
    show (parseFlagSet [⟨"output", true, "string", "json"⟩]).2 = none
    decide
  rw [Run_of_valid exec operation _ ["my-topic"] hinit hnone]
  have hpath : parseCompleteCommand
      (.sub "topics" [⟨"output", true, "string", "json"⟩] (.sub "get" f1 (.root top f0))) []
      = ["get", "topics"] := rfl
  have htok : (parseFlags
      (.sub "topics" [⟨"output", true, "string", "json"⟩] (.sub "get" f1 (.root top f0)))).1
      = ["--output=json"] := by
    show (parseFlagSet [⟨"output", true, "string", "json"⟩]).1 = ["--output=json"]
    decide
  rw [hpath, htok]
  rfl

/-- Witness of `Run_dispatch` on the sample context and command. -/
theorem Run_dispatch_witness :
    Operation.Run failingExecutor ⟨sampleContext⟩ sampleCommand ["my-topic"] =
      ⟨⟨sampleContext⟩,
        [⟨"scratch", "/kafkactl", ["get", "topics", "my-topic", "--output=json"],
          ["BROKERS=b1:9092 b2:9092", "TLS_ENABLED=true", "TLS_INSECURE=true"]⟩],
        some (.foreign "pod failed")⟩ :=
  Eq.trans
    ((Run_dispatch failingExecutor ⟨sampleContext⟩ sampleCommand ["my-topic"] rfl (by decide)
      (by decide)).1 (by decide))
    (by decide)

/-- C10: when validation fails `Run` returns that error without calling the
executor; when validation passes and flag reconstruction fails it returns that
error without calling the executor; it never makes more than one call; and
when it makes a call it returns exactly what the call returned. -/
theorem Run_failure (exec : Executor) (operation : Operation) (cmd : Command)
    (args : List String) :
    (∀ e, ( Operation.initialize operation).2 = some e →
      Operation.Run exec operation cmd args = ⟨operation, [], some e⟩) ∧
    (∀ e, ( Operation.initialize operation).2 = none → (parseFlags cmd).2 = some e →
      Operation.Run exec operation cmd args = ⟨operation, [], some e⟩) ∧
    ( Operation.Run exec operation cmd args).calls.length ≤ 1 ∧
    (∀ call, ( Operation.Run exec operation cmd args).calls = [call] →
      ( Operation.Run exec operation cmd args).err = exec operation.context call) := by
  refine ⟨fun e h => Run_of_invalid exec operation cmd args e h,
    fun e h hf => Run_of_flag_error exec operation cmd args e h hf, ?_, ?_⟩
  · cases hi : ( Operation.initialize operation).2 with
    | some e => rw [Run_of_invalid exec operation cmd args e hi]; simp
    | none =>
      cases hf : (parseFlags cmd).2 with
      | some e => rw [Run_of_flag_error exec operation cmd args e hi hf]; simp
      | none => rw [Run_of_valid exec operation cmd args hi hf]; simp
  · intro call hcall
    cases hi : ( Operation.initialize operation).2 with
    | some e => rw [Run_of_invalid exec operation cmd args e hi] at hcall; simp at hcall
    | none =>
      cases hf : (parseFlags cmd).2 with
      | some e => rw [Run_of_flag_error exec operation cmd args e hi hf] at hcall; simp at hcall
      | none =>
        rw [Run_of_valid exec operation cmd args hi hf] at hcall ⊢
        simp only [List.cons.injEq, and_true] at hcall
        rw [← hcall]

/-- Witness of `Run_failure`: a context without namespace, a flag that does not
parse, and an executor that fails. -/
theorem Run_failure_witness :
    Operation.Run failingExecutor ⟨{ sampleContext with Kubernetes := ⟨true, "kind-dev", ""⟩ }⟩
        sampleCommand ["my-topic"]
      = ⟨⟨{ sampleContext with Kubernetes := ⟨true, "kind-dev", ""⟩ }⟩, [], some (.errorf
          "context has no kubernetes namespace set: contexts.dev.kubernetes.namespace")⟩ ∧
    Operation.Run failingExecutor ⟨sampleContext⟩
        (.root "kafkactl" [⟨"partitions", true, "intSlice", "not-json"⟩]) []
      = ⟨⟨sampleContext⟩, [], some (.unmarshal "not-json")⟩ ∧
    ( Operation.Run failingExecutor ⟨sampleContext⟩ sampleCommand ["my-topic"]).err
      = some (.foreign "pod failed") :=
  ⟨(Run_failure failingExecutor ⟨{ sampleContext with Kubernetes := ⟨true, "kind-dev", ""⟩ }⟩
      sampleCommand ["my-topic"]).1 _ (by decide),
   (Run_failure failingExecutor ⟨sampleContext⟩
      (.root "kafkactl" [⟨"partitions", true, "intSlice", "not-json"⟩]) []).2.1 _
      (by decide) (by decide),
   Eq.trans ((Run_failure failingExecutor ⟨sampleContext⟩ sampleCommand ["my-topic"]).2.2.2
      ⟨"scratch", "/kafkactl", ["get", "topics", "my-topic", "--output=json"],
        ["BROKERS=b1:9092 b2:9092", "TLS_ENABLED=true", "TLS_INSECURE=true"]⟩ (by decide))
      (by decide)⟩

/-! ### Environment list: keys -/

/-- The entries of the emitted rows, one row at a time. -/
theorem filter_map_cons_row (row : Bool × String × String) (rows : List (Bool × String × String)) :
    ((row :: rows).filter (fun r => r.1)).map entryOf
      = (if row.1 = true then [entryOf row] else []) ++ (rows.filter (fun r => r.1)).map entryOf := by
  cases h : row.1 <;> simp [List.filter_cons, h]

/-- The environment list is the entries of the emitted rows of the table, in
order. -/
theorem parsePodEnvironment_eq_table (context : ClientContext) :
    parsePodEnvironment context
      = ((podEntryTable context).filter (fun r => r.1)).map entryOf := by
  simp only [parsePodEnvironment, podEntryTable, filter_map_cons_row, appendStrings,
    appendBool_eq, appendStringIfDefined_eq, List.nil_append, List.append_assoc,
    List.filter_nil, List.map_nil, List.append_nil, entryOf, bne_iff_ne, ne_eq, if_true,
    String.append_assoc]
  rfl



/-- The characters before the first `=` of `key=value`, the key being free of
`=`. -/
theorem takeWhile_key (k v : List Char) (hk : '=' ∉ k) :
    (k ++ '=' :: v).takeWhile (fun c => c != '=') = k := by
  induction k with
  | nil => simp [List.takeWhile_cons]
  | cons c cs ih =>
    have hc : c ≠ '=' := fun h => hk (h ▸ List.mem_cons_self _ _)
    have hcs : '=' ∉ cs := fun h => hk (List.mem_cons_of_mem _ h)
    simp [List.takeWhile_cons, hc, ih hcs]

/-- The characters of the entry of a row. -/
theorem entryOf_data (row : Bool × String × String) :
    (entryOf row).data = row.2.1.data ++ '=' :: row.2.2.data := by
  simp only [entryOf, String.data_append, List.append_assoc]
  rfl

/-- The key of the entry of a row is the key of the row. -/
theorem entryKey_entryOf (row : Bool × String × String) (hk : '=' ∉ row.2.1.data) :
    entryKey (entryOf row) = row.2.1.data := by
  rw [entryKey, entryOf_data, takeWhile_key _ _ hk]

/-- An entry that begins with `KEY=` has the key `KEY`. -/
theorem key_of_beginsWith (key : String) (row : Bool × String × String)
    (hkey : '=' ∉ key.data) (hk : '=' ∉ row.2.1.data) (h : beginsWith key (entryOf row)) :
    row.2.1 = key := by
  obtain ⟨t, ht⟩ := h
  rw [entryOf_data, String.data_append] at ht
  have ht' : key.data ++ '=' :: t = row.2.1.data ++ '=' :: row.2.2.data := by
    rw [← ht]
    simp only [List.append_assoc]
    rfl
  exact (String.ext (split_at_equals _ _ _ _ hkey hk ht').1).symm

/-- The keys of the rows are the fifteen keys, whatever the context. -/
theorem table_keys (context : ClientContext) :
    (podEntryTable context).map (fun r => r.2.1) = podKeys := rfl

/-- The key of a row is one of the fifteen keys. -/
theorem table_key_mem (context : ClientContext) (row : Bool × String × String)
    (h : row ∈ podEntryTable context) : row.2.1 ∈ podKeys := by
  rw [← table_keys context]
  exact List.mem_map_of_mem _ h

/-- No key contains `=`. -/
theorem podKeys_no_equals : ∀ k ∈ podKeys, '=' ∉ k.data := by decide

/-- Two rows of the table with the same key are the same row. -/
theorem table_row_unique (context : ClientContext) (r r' : Bool × String × String)
    (h : r ∈ podEntryTable context) (h' : r' ∈ podEntryTable context)
    (hkey : r.2.1 = r'.2.1) : r = r' := by
  have hnodup : ((podEntryTable context).map (fun r => r.2.1)).Nodup := by
    rw [table_keys]; decide
  exact List.inj_on_of_nodup_map hnodup h h' hkey

/-- An entry of the environment that begins with `KEY=` is the entry of the row
of that key, and that row is emitted. -/
theorem row_of_beginsWith (context : ClientContext) (key : String)
    (row : Bool × String × String) (hrow : row ∈ podEntryTable context)
    (hkey : row.2.1 = key) (entry : String) (he : entry ∈ parsePodEnvironment context)
    (hb : beginsWith key entry) : row.1 = true ∧ entry = entryOf row := by
  rw [parsePodEnvironment_eq_table, List.mem_map] at he
  obtain ⟨r, hr, rfl⟩ := he
  rw [List.mem_filter] at hr
  have hk := podKeys_no_equals _ (table_key_mem context r hr.1)
  have hk' : '=' ∉ key.data := by
    rw [← hkey]; exact podKeys_no_equals _ (table_key_mem context row hrow)
  have hsame : r.2.1 = row.2.1 := by
    rw [hkey]; exact key_of_beginsWith key r hk' hk hb
  have := table_row_unique context r row hr.1 hrow hsame
  subst this
  exact ⟨hr.2, rfl⟩

/-- The entry of a row begins with its key and `=`. -/
theorem beginsWith_entryOf (row : Bool × String × String) : beginsWith row.2.1 (entryOf row) := by
  refine ⟨row.2.2.data, ?_⟩
  rw [entryOf_data, String.data_append]
  simp only [List.append_assoc]
  rfl

/-- The entry of an emitted row is in the environment. -/
theorem entry_mem_of_row (context : ClientContext) (row : Bool × String × String)
    (hrow : row ∈ podEntryTable context) (h : row.1 = true) :
    entryOf row ∈ parsePodEnvironment context := by
  rw [parsePodEnvironment_eq_table]
  exact List.mem_map_of_mem _ (List.mem_filter.2 ⟨hrow, h⟩)

/-- A boolean key is present exactly when the boolean is true, and then as
`KEY=true`. -/
theorem bool_key_present (context : ClientContext) (key : String) (value : Bool)
    (hrow : (value, key, "true") ∈ podEntryTable context) :
    ((∃ entry ∈ parsePodEnvironment context, beginsWith key entry) ↔ value = true) ∧
    (∀ entry ∈ parsePodEnvironment context, beginsWith key entry →
      entry = key ++ "=" ++ "true") := by
  constructor
  · constructor
    · rintro ⟨entry, he, hb⟩
      exact (row_of_beginsWith context key _ hrow rfl entry he hb).1
    · intro hv
      exact ⟨entryOf (value, key, "true"), entry_mem_of_row context _ hrow hv,
        beginsWith_entryOf (value, key, "true")⟩
  · intro entry he hb
    exact (row_of_beginsWith context key _ hrow rfl entry he hb).2



/-- The keys of the environment list are the keys of the emitted rows. -/
theorem environment_keys (context : ClientContext) :
    (parsePodEnvironment context).map entryKey
      = ((podEntryTable context).filter (fun r => r.1)).map (fun r => r.2.1.data) := by
  rw [parsePodEnvironment_eq_table, List.map_map]
  apply List.map_congr_left
  intro r hr
  exact entryKey_entryOf r (podKeys_no_equals _ (table_key_mem context r (List.mem_filter.1 hr).1))

/-- No key occurs twice in the environment list. -/
theorem environment_keys_nodup (context : ClientContext) :
    ((parsePodEnvironment context).map entryKey).Nodup := by
  rw [environment_keys]
  have hsub : List.Sublist
      (((podEntryTable context).filter (fun r => r.1)).map (fun r => r.2.1.data))
      ((podEntryTable context).map (fun r => r.2.1.data)) :=
    (List.filter_sublist _).map _
  have hall : (podEntryTable context).map (fun r => r.2.1.data) = podKeys.map String.data := by
    rw [← table_keys context, List.map_map]
    rfl
  rw [hall] at hsub
  exact hsub.nodup (by decide)

/-- The environment list starts with the `BROKERS` entry. -/
theorem environment_cons (context : ClientContext) :
    parsePodEnvironment context
      = ("BROKERS=" ++ " ".intercalate context.Brokers)
        :: (((podEntryTable context).tail).filter (fun r => r.1)).map entryOf := by
  rw [parsePodEnvironment_eq_table]
  simp only [podEntryTable, List.filter_cons, if_true, List.map_cons, List.tail_cons, entryOf,
    String.append_assoc]
  rfl

/-- C13: the environment list has an entry beginning with `TLS_ENABLED=`
(`TLS_INSECURE=`, `SASL_ENABLED=`) exactly when that boolean is true, and such
an entry is `KEY=true`; its first element is the `BROKERS=` entry and no other
entry begins with `BROKERS=`; no two entries have the same key; and it has
between 1 and 15 entries. Nothing is assumed about the string fields. -/
theorem parsePodEnvironment_keys (context : ClientContext) :
    (((∃ entry ∈ parsePodEnvironment context, beginsWith "TLS_ENABLED" entry) ↔
        context.TLS.Enabled = true) ∧
      (∀ entry ∈ parsePodEnvironment context, beginsWith "TLS_ENABLED" entry →
        entry = "TLS_ENABLED=true")) ∧
    (((∃ entry ∈ parsePodEnvironment context, beginsWith "TLS_INSECURE" entry) ↔
        context.TLS.Insecure = true) ∧
      (∀ entry ∈ parsePodEnvironment context, beginsWith "TLS_INSECURE" entry →
        entry = "TLS_INSECURE=true")) ∧
    (((∃ entry ∈ parsePodEnvironment context, beginsWith "SASL_ENABLED" entry) ↔
        context.Sasl.Enabled = true) ∧
      (∀ entry ∈ parsePodEnvironment context, beginsWith "SASL_ENABLED" entry →
        entry = "SASL_ENABLED=true")) ∧
    (∃ rest, parsePodEnvironment context
        = ("BROKERS=" ++ " ".intercalate context.Brokers) :: rest ∧
      beginsWith "BROKERS" ("BROKERS=" ++ " ".intercalate context.Brokers) ∧
      ∀ entry ∈ rest, ¬ beginsWith "BROKERS" entry) ∧
    ((parsePodEnvironment context).map entryKey).Nodup ∧
    1 ≤ (parsePodEnvironment context).length ∧ (parsePodEnvironment context).length ≤ 15 := by
  have hnodup := environment_keys_nodup context
  have hcons := environment_cons context
  refine ⟨bool_key_present context "TLS_ENABLED" context.TLS.Enabled (by simp [podEntryTable]),
    bool_key_present context "TLS_INSECURE" context.TLS.Insecure (by simp [podEntryTable]),
    bool_key_present context "SASL_ENABLED" context.Sasl.Enabled (by simp [podEntryTable]),
    ⟨_, hcons, ?_, ?_⟩, hnodup, ?_, ?_⟩
  · exact beginsWith_entryOf (true, "BROKERS", " ".intercalate context.Brokers)
  · intro entry he hb
    have hmem : entry ∈ parsePodEnvironment context := by
      rw [hcons]; exact List.mem_cons_of_mem _ he
    have hrow : (true, "BROKERS", " ".intercalate context.Brokers) ∈ podEntryTable context := by
      simp [podEntryTable]
    have heq := (row_of_beginsWith context "BROKERS" _ hrow rfl entry hmem hb).2
    have hnd : (parsePodEnvironment context).Nodup := List.Nodup.of_map _ hnodup
    rw [hcons, List.nodup_cons] at hnd
    apply hnd.1
    have hfirst : entryOf (true, "BROKERS", " ".intercalate context.Brokers)
        = "BROKERS=" ++ " ".intercalate context.Brokers := by
      simp only [entryOf, String.append_assoc]
      rfl
    rw [← hfirst, ← heq]
    exact he
  · rw [hcons]; simp
  · rw [parsePodEnvironment_eq_table, List.length_map]
    exact (List.filter_sublist _).length_le

/-- Witness of `parsePodEnvironment_keys` on the sample context, whose TLS
booleans are true and whose SASL boolean is false. -/
theorem parsePodEnvironment_keys_witness :
    (∃ entry ∈ parsePodEnvironment sampleContext, beginsWith "TLS_ENABLED" entry) ∧
    (¬ ∃ entry ∈ parsePodEnvironment sampleContext, beginsWith "SASL_ENABLED" entry) ∧
    "TLS_INSECURE=true" = "TLS_INSECURE=true" :=
  ⟨(parsePodEnvironment_keys sampleContext).1.1.2 rfl,
   fun h => absurd ((parsePodEnvironment_keys sampleContext).2.2.1.1.1 h) (by decide),
   (parsePodEnvironment_keys sampleContext).2.1.2 "TLS_INSECURE=true" (by decide)
     (by unfold beginsWith; decide)⟩

/-! ### Environment list: the broker entry -/

/-- The characters `String.intercalate` builds, given what it has accumulated. -/
theorem intercalate_go_data (sep : String) (rest : List String) (acc : String) :
    (String.intercalate.go acc sep rest).data
      = acc.data ++ (rest.map (fun a => sep.data ++ a.data)).flatten := by
  induction rest generalizing acc with
  | nil => simp [String.intercalate.go]
  | cons a rest ih =>
    rw [String.intercalate.go, ih]
    simp [String.data_append, List.append_assoc]

/-- The characters of a joined non-empty list: the first element, then each
further element after a separator. -/
theorem intercalate_cons_data (sep first : String) (rest : List String) :
    (sep.intercalate (first :: rest)).data
      = first.data ++ (rest.map (fun a => sep.data ++ a.data)).flatten := by
  rw [String.intercalate, intercalate_go_data]

/-- Splitting always gives at least one piece. -/
theorem splitSpaces_ne_nil (cs : List Char) : splitSpaces cs ≠ [] := by
  induction cs with
  | nil => simp [splitSpaces]
  | cons c cs ih =>
    rw [splitSpaces]
    split
    · simp
    · split <;> simp

/-- A text without space is one piece. -/
theorem splitSpaces_word (w : List Char) (hw : ' ' ∉ w) : splitSpaces w = [w] := by
  induction w with
  | nil => rfl
  | cons c cs ih =>
    have hc : c ≠ ' ' := fun h => hw (h ▸ List.mem_cons_self _ _)
    rw [splitSpaces, if_neg hc, ih (fun h => hw (List.mem_cons_of_mem _ h))]

/-- A text without space followed by a space is the first piece. -/
theorem splitSpaces_word_space (w rest : List Char) (hw : ' ' ∉ w) :
    splitSpaces (w ++ ' ' :: rest) = w :: splitSpaces rest := by
  induction w with
  | nil => simp [splitSpaces]
  | cons c cs ih =>
    have hc : c ≠ ' ' := fun h => hw (h ▸ List.mem_cons_self _ _)
    rw [List.cons_append, splitSpaces, if_neg hc, ih (fun h => hw (List.mem_cons_of_mem _ h))]

/-- Splitting the joined text gives the elements back when no element has a
space. -/
theorem splitSpaces_joined (first : String) (rest : List String)
    (h : ∀ b ∈ first :: rest, ' ' ∉ b.data) :
    splitSpaces (first.data ++ (rest.map (fun a => " ".data ++ a.data)).flatten)
      = (first :: rest).map String.data := by
  induction rest generalizing first with
  | nil =>
    simp only [List.map_nil, List.flatten_nil, List.append_nil, List.map_cons]
    exact splitSpaces_word _ (h first (List.mem_cons_self _ _))
  | cons a rest ih =>
    have hfirst := h first (List.mem_cons_self _ _)
    have hrest : ∀ b ∈ a :: rest, ' ' ∉ b.data :=
      fun b hb => h b (List.mem_cons_of_mem _ hb)
    have hform : first.data ++ (List.map (fun a => " ".data ++ a.data) (a :: rest)).flatten
        = first.data ++ ' ' :: (a.data ++ (rest.map (fun a => " ".data ++ a.data)).flatten) := by
      simp only [List.map_cons, List.flatten_cons, List.append_assoc]
      rfl
    rw [hform, splitSpaces_word_space _ _ hfirst, ih a hrest]
    rfl

/-- Splitting undoes joining with single spaces on a non-empty list whose
elements have no space. -/
theorem splitOnSpace_intercalate (brokers : List String) (hne : brokers ≠ [])
    (h : ∀ b ∈ brokers, ' ' ∉ b.data) :
    splitOnSpace (" ".intercalate brokers) = brokers := by
  cases brokers with
  | nil => exact absurd rfl hne
  | cons first rest =>
    rw [splitOnSpace, intercalate_cons_data, splitSpaces_joined first rest h, List.map_map]
    exact List.map_id'' (fun _ => rfl) _

/-- The value of the entry `BROKERS=value`. -/
theorem brokersValue_entry (value : String) : brokersValue ("BROKERS=" ++ value) = value := by
  apply String.ext
  simp only [brokersValue, String.data_append]
  rfl

/-- C17: for a non-empty broker list whose elements are non-empty and free of
spaces, splitting the text after `BROKERS=` of the first entry on single spaces
gives the broker list back; and the two different lists `["a b"]` and
`["a", "b"]` give the same entry `BROKERS=a b`. -/
theorem brokers_entry_lossless (context : ClientContext) :
    (context.Brokers ≠ [] → (∀ b ∈ context.Brokers, b ≠ "" ∧ ' ' ∉ b.data) →
      ∃ entry rest, parsePodEnvironment context = entry :: rest ∧
        beginsWith "BROKERS" entry ∧
        splitOnSpace (brokersValue entry) = context.Brokers) ∧
    ((["a b"] : List String) ≠ ["a", "b"] ∧
      (parsePodEnvironment { context with Brokers := ["a b"] }).head? = some "BROKERS=a b" ∧
      (parsePodEnvironment { context with Brokers := ["a", "b"] }).head? = some "BROKERS=a b") := by
  refine ⟨fun hne hwf => ?_, by decide, ?_, ?_⟩
  · refine ⟨_, _, environment_cons context,
      beginsWith_entryOf (true, "BROKERS", " ".intercalate context.Brokers), ?_⟩
    rw [brokersValue_entry]
    exact splitOnSpace_intercalate context.Brokers hne (fun b hb => (hwf b hb).2)
  · rw [environment_cons]
    rfl
  · rw [environment_cons]
    rfl

/-- Witness of `brokers_entry_lossless` on the sample context with two brokers. -/
theorem brokers_entry_lossless_witness :
    ∃ entry rest, parsePodEnvironment sampleContext = entry :: rest ∧
      beginsWith "BROKERS" entry ∧
      splitOnSpace (brokersValue entry) = ["b1:9092", "b2:9092"] :=
  (brokers_entry_lossless sampleContext).1 (by decide) (by decide)

/-! ### Flag reconstruction: enumeration order and the first failure -/

/-- When no flag fails, the result is the tokens of the flags one after the other. -/
theorem parseFlagSet_of_all_pass (flags : List Flag) (h : ∀ g ∈ flags, flagError g = none) :
    parseFlagSet flags = ((flags.map flagTokens).flatten, none) := by
  induction flags with
  | nil => rfl
  | cons g gs ih =>
    rw [parseFlagSet_cons, h g (List.mem_cons_self _ _),
      ih (fun x hx => h x (List.mem_cons_of_mem _ hx))]
    simp

/-- When the enumeration ends without error, no flag has set one. -/
theorem flagError_none_of_pass (flags : List Flag) (h : (parseFlagSet flags).2 = none) :
    ∀ g ∈ flags, flagError g = none := by
  intro g hg
  by_contra hne
  exact (parseFlagSet_error_iff flags).2 ⟨g, hg, hne⟩ h

/-- The first failing flag ends the enumeration. -/
theorem parseFlagSet_first_failure (pre post : List Flag) (f : Flag) (e : GoError)
    (hpre : ∀ g ∈ pre, flagError g = none) (hf : flagError f = some e) :
    parseFlagSet (pre ++ f :: post) = ((pre.map flagTokens).flatten, some e) := by
  have hp := parseFlagSet_of_all_pass pre hpre
  have htok : flagTokens f = [] := by
    obtain ⟨hc, ht, hd⟩ := (flagError_iff f).1 (by rw [hf]; simp)
    exact (flag_ints_error f hc ht hd).1
  rw [parseFlagSet_append pre _ (by rw [hp]), parseFlagSet_cons, hf, hp, htok]
  simp

/-- A flag set with a failing flag has a first failing flag. -/
theorem exists_first_failure (flags : List Flag) (h : ∃ g ∈ flags, flagError g ≠ none) :
    ∃ pre f post e, flags = pre ++ f :: post ∧ (∀ g ∈ pre, flagError g = none) ∧
      flagError f = some e := by
  induction flags with
  | nil => obtain ⟨g, hg, _⟩ := h; cases hg
  | cons a rest ih =>
    cases ha : flagError a with
    | some e => exact ⟨[], a, rest, e, rfl, by simp, ha⟩
    | none =>
      have hrest : ∃ g ∈ rest, flagError g ≠ none := by
        obtain ⟨g, hg, hne⟩ := h
        rcases List.mem_cons.1 hg with rfl | hg
        · exact absurd ha hne
        · exact ⟨g, hg, hne⟩
      obtain ⟨pre, f, post, e, hsplit, hpre, hf⟩ := ih hrest
      refine ⟨a :: pre, f, post, e, by rw [hsplit]; rfl, ?_, hf⟩
      intro g hg
      rcases List.mem_cons.1 hg with rfl | hg
      · exact ha
      · exact hpre g hg

/-- C14: when flag reconstruction succeeds the returned list is the per-flag
token lists one after the other in enumeration order, so for a flag `f`
enumerated before a flag `g` the tokens of `f` all stand before the tokens of
`g`. -/
theorem parseFlags_enumeration_order (cmd : Command) (h : (parseFlags cmd).2 = none) :
    (parseFlags cmd).1 = (cmd.Flags.map flagTokens).flatten ∧
    (∀ (l1 l2 l3 : List Flag) (f g : Flag), cmd.Flags = l1 ++ f :: (l2 ++ g :: l3) →
      (parseFlags cmd).1 = (l1.map flagTokens).flatten ++ flagTokens f
        ++ (l2.map flagTokens).flatten ++ flagTokens g ++ (l3.map flagTokens).flatten) := by
  have hall := parseFlagSet_of_all_pass cmd.Flags (flagError_none_of_pass cmd.Flags h)
  have h1 : (parseFlags cmd).1 = (cmd.Flags.map flagTokens).flatten := by
    rw [parseFlags, hall]
  refine ⟨h1, fun l1 l2 l3 f g hsplit => ?_⟩
  rw [h1, hsplit]
  simp

/-- Witness of `parseFlags_enumeration_order` on four flags, one of them
unchanged and one a list. -/
theorem parseFlags_enumeration_order_witness :
    (parseFlags (.root "kafkactl"
        [⟨"verbose", true, "bool", "true"⟩, ⟨"partitions", true, "int32Slice", "[1,2]"⟩,
          ⟨"quiet", false, "bool", "false"⟩, ⟨"output", true, "string", "json"⟩])).1
      = ["--verbose=true", "--partitions=1", "--partitions=2", "--output=json"] :=
  Eq.trans
    (parseFlags_enumeration_order (.root "kafkactl"
        [⟨"verbose", true, "bool", "true"⟩, ⟨"partitions", true, "int32Slice", "[1,2]"⟩,
          ⟨"quiet", false, "bool", "false"⟩, ⟨"output", true, "string", "json"⟩])
      (by decide)).1
    (by decide)

/-- C18: when some changed `intSlice` or `int32Slice` flag fails to decode there
is a first such flag in enumeration order; the returned error is the error of
that flag, the returned tokens are the tokens of the flags before it, and the
result is the same whatever flags follow it. -/
theorem parseFlags_short_circuit (cmd : Command) :
    ((∃ g ∈ cmd.Flags, g.Changed = true ∧
        (g.ValueType = "intSlice" ∨ g.ValueType = "int32Slice") ∧
        decodeInts g.ValueString.data = none) →
      ∃ pre f post, cmd.Flags = pre ++ f :: post ∧
        (∀ g ∈ pre, flagError g = none) ∧ flagError f = some (.unmarshal f.ValueString)) ∧
    (∀ (pre post : List Flag) (f : Flag), cmd.Flags = pre ++ f :: post →
      (∀ g ∈ pre, flagError g = none) →
      f.Changed = true → (f.ValueType = "intSlice" ∨ f.ValueType = "int32Slice") →
      decodeInts f.ValueString.data = none →
      parseFlags cmd = ((pre.map flagTokens).flatten, some (.unmarshal f.ValueString)) ∧
      ∀ post' : List Flag, parseFlagSet (pre ++ f :: post') = parseFlags cmd) := by
  constructor
  · rintro ⟨g, hg, hfail⟩
    obtain ⟨pre, f, post, e, hsplit, hpre, hf⟩ :=
      exists_first_failure cmd.Flags ⟨g, hg, (flagError_iff g).2 hfail⟩
    refine ⟨pre, f, post, hsplit, hpre, ?_⟩
    obtain ⟨hc, ht, hd⟩ := (flagError_iff f).1 (by rw [hf]; simp)
    exact (flag_ints_error f hc ht hd).2
  · intro pre post f hsplit hpre hc ht hd
    have hf := (flag_ints_error f hc ht hd).2
    have hcmd : parseFlags cmd
        = ((pre.map flagTokens).flatten, some (.unmarshal f.ValueString)) := by
      rw [parseFlags, hsplit, parseFlagSet_first_failure pre post f _ hpre hf]
    refine ⟨hcmd, fun post' => ?_⟩
    rw [hcmd, parseFlagSet_first_failure pre post' f _ hpre hf]

/-- Witness of `parseFlags_short_circuit`: two failing list flags, the first of
them after a plain flag. -/
theorem parseFlags_short_circuit_witness :
    (∃ pre f post,
      (Command.root "kafkactl"
        [⟨"output", true, "string", "json"⟩, ⟨"partitions", true, "intSlice", "1,2"⟩,
          ⟨"replicas", true, "int32Slice", "oops"⟩, ⟨"verbose", true, "bool", "true"⟩]).Flags
        = pre ++ f :: post ∧
      (∀ g ∈ pre, flagError g = none) ∧ flagError f = some (.unmarshal f.ValueString)) ∧
    parseFlags (.root "kafkactl"
        [⟨"output", true, "string", "json"⟩, ⟨"partitions", true, "intSlice", "1,2"⟩,
          ⟨"replicas", true, "int32Slice", "oops"⟩, ⟨"verbose", true, "bool", "true"⟩])
      = (["--output=json"], some (.unmarshal "1,2")) :=
  ⟨(parseFlags_short_circuit (.root "kafkactl"
        [⟨"output", true, "string", "json"⟩, ⟨"partitions", true, "intSlice", "1,2"⟩,
          ⟨"replicas", true, "int32Slice", "oops"⟩, ⟨"verbose", true, "bool", "true"⟩])).1
      ⟨⟨"replicas", true, "int32Slice", "oops"⟩, by decide, rfl, Or.inr rfl, by decide⟩,
   Eq.trans
    (((parseFlags_short_circuit (.root "kafkactl"
        [⟨"output", true, "string", "json"⟩, ⟨"partitions", true, "intSlice", "1,2"⟩,
          ⟨"replicas", true, "int32Slice", "oops"⟩, ⟨"verbose", true, "bool", "true"⟩])).2
      [⟨"output", true, "string", "json"⟩]
      [⟨"replicas", true, "int32Slice", "oops"⟩, ⟨"verbose", true, "bool", "true"⟩]
      ⟨"partitions", true, "intSlice", "1,2"⟩ rfl (by decide) rfl (Or.inl rfl) (by decide)).1)
    (by decide)⟩

/-- C15 as stated fails: a changed flag of type `int64Slice` with the rendering
`[1,2,3]`, a JSON array of integers, yields the single token
`--offsets=[1,2,3]`, not the three tokens an `int32Slice` flag yields. -/
theorem parseFlags_int64Slice_counterexample :
    IsJSONIntArray "[1,2,3]" [1, 2, 3] ∧
    parseFlags (.root "kafkactl" [⟨"offsets", true, "int64Slice", "[1,2,3]"⟩])
      = (["--offsets=[1,2,3]"], none) ∧
    parseFlags (.root "kafkactl" [⟨"offsets", true, "int32Slice", "[1,2,3]"⟩])
      = (["--offsets=1", "--offsets=2", "--offsets=3"], none) :=
  ⟨⟨⟨[], [], [⟨[], false, ['1'], []⟩, ⟨[], false, ['2'], []⟩, ⟨[], false, ['3'], []⟩], []⟩,
      by decide, by decide, by decide⟩, by decide, by decide⟩

/-- C15 (amended): a changed flag of type `int64Slice` that is reached with no
error pending is not parsed: it contributes the single token `--name=value`
and never an error, so the rendering `[1,2,3]` gives `--name=[1,2,3]`; the
list of 64-bit integers that is parsed like `int32Slice` is the type
`intSlice`, which contributes one token per integer of a JSON array within the
64-bit range. -/
theorem parseFlags_int64Slice_plain (cmd : Command) (pre post : List Flag) (f : Flag)
    (hflags : cmd.Flags = pre ++ f :: post) (hpre : (parseFlagSet pre).2 = none)
    (hc : f.Changed = true) :
    (f.ValueType = "int64Slice" →
      flagTokens f = ["--" ++ f.Name ++ "=" ++ f.ValueString] ∧ flagError f = none ∧
      (parseFlags cmd).1 = (parseFlagSet pre).1 ++ ["--" ++ f.Name ++ "=" ++ f.ValueString]
        ++ (parseFlagSet post).1) ∧
    (f.ValueType = "int64Slice" → f.ValueString = "[1,2,3]" →
      flagTokens f = ["--" ++ f.Name ++ "=[1,2,3]"]) ∧
    (f.ValueType = "intSlice" → ∀ values : List Int, IsJSONIntArray f.ValueString values →
      (∀ v ∈ values, minInt ≤ v ∧ v ≤ maxInt) →
      flagTokens f = values.map (fun v => "--" ++ f.Name ++ "=" ++ itoa v) ∧
      (parseFlags cmd).1 = (parseFlagSet pre).1
        ++ values.map (fun v => "--" ++ f.Name ++ "=" ++ itoa v) ++ (parseFlagSet post).1) := by
  have hplain : f.ValueType = "int64Slice" →
      flagTokens f = ["--" ++ f.Name ++ "=" ++ f.ValueString] ∧ flagError f = none :=
    fun ht => flag_plain f hc (by rw [ht]; decide) (by rw [ht]; decide)
  refine ⟨fun ht => ?_, fun ht hs => ?_, fun ht values harr hrange => ?_⟩
  · obtain ⟨htok, herr⟩ := hplain ht
    refine ⟨htok, herr, ?_⟩
    rw [parseFlags, hflags, parseFlagSet_append pre (f :: post) hpre, parseFlagSet_cons, herr,
      htok]
    simp
  · rw [(hplain ht).1, hs, String.append_assoc]
    rfl
  · obtain ⟨a, hwf, htext, hvalues⟩ := harr
    have hdec : decodeInts f.ValueString.data = some values := by
      rw [← htext, ← hvalues]
      exact decodeInts_arrayText a hwf (by rw [hvalues]; exact hrange)
    obtain ⟨htok, herr⟩ := flag_ints_ok f hc (Or.inl ht) values hdec
    refine ⟨htok, ?_⟩
    rw [parseFlags, hflags, parseFlagSet_append pre (f :: post) hpre, parseFlagSet_cons, herr,
      htok]
    simp

/-- Witness of `parseFlags_int64Slice_plain`: the rendering `[1,2,3]` under the
types `int64Slice` and `intSlice`. -/
theorem parseFlags_int64Slice_plain_witness :
    (parseFlags (.root "kafkactl"
        [⟨"output", true, "string", "json"⟩, ⟨"offsets", true, "int64Slice", "[1,2,3]"⟩])).1
      = ["--output=json", "--offsets=[1,2,3]"] ∧
    (parseFlags (.root "kafkactl"
        [⟨"output", true, "string", "json"⟩, ⟨"offsets", true, "intSlice", "[1,2,3]"⟩])).1
      = ["--output=json", "--offsets=1", "--offsets=2", "--offsets=3"] :=
  ⟨Eq.trans ((parseFlags_int64Slice_plain
      (.root "kafkactl"
        [⟨"output", true, "string", "json"⟩, ⟨"offsets", true, "int64Slice", "[1,2,3]"⟩])
      [⟨"output", true, "string", "json"⟩] [] ⟨"offsets", true, "int64Slice", "[1,2,3]"⟩
      rfl (by decide) rfl).1 rfl).2.2 (by decide),
   Eq.trans (((parseFlags_int64Slice_plain
      (.root "kafkactl"
        [⟨"output", true, "string", "json"⟩, ⟨"offsets", true, "intSlice", "[1,2,3]"⟩])
      [⟨"output", true, "string", "json"⟩] [] ⟨"offsets", true, "intSlice", "[1,2,3]"⟩
      rfl (by decide) rfl).2.2 rfl) [1, 2, 3] isJSONIntArray_123 (by decide)).2 (by decide)⟩

/-! ### Command path: depth -/

/-- With an accumulator: a node that reaches a parentless node after `d` parent
links adds `d` names to what was found. -/
theorem ancestor_depth (cmd : Command) (found : List String) (d : Nat) (top : Command)
    (hreach : Command.ancestor d cmd = some top) (htop : top.Parent = none) :
    (parseCompleteCommand cmd found).length = d + found.length := by
  induction cmd generalizing found d with
  | root name flags =>
    cases d with
    | zero => simp [parseCompleteCommand]
    | succ d => simp [Command.ancestor, Command.Parent] at hreach
  | sub name flags parent ih =>
    cases d with
    | zero =>
      simp only [Command.ancestor, Option.some.injEq] at hreach
      rw [← hreach] at htop
      simp [Command.Parent] at htop
    | succ d =>
      simp only [Command.ancestor, Command.Parent] at hreach
      rw [parseCompleteCommand, ih _ d hreach]
      simp only [List.length_append, List.length_cons, List.length_nil]
      omega

/-- The sample chain of depth `d` reaches its root after `d` parent links. -/
theorem chainOfDepth_ancestor (d : Nat) :
    Command.ancestor d (chainOfDepth d) = some (.root "kafkactl" []) := by
  induction d with
  | zero => rfl
  | succ d ih => simpa [chainOfDepth, Command.ancestor, Command.Parent] using ih

/-- C16: `parseCompleteCommand` is a total function, and for a node that reaches
a node without parent after `d` parent links it returns exactly `d` names,
whatever `d` is; nodes of every depth exist. -/
theorem parseCompleteCommand_depth (cmd : Command) (d : Nat) (top : Command)
    (hreach : Command.ancestor d cmd = some top) (htop : top.Parent = none) :
    (parseCompleteCommand cmd []).length = d ∧
    (∀ depth : Nat, ∃ node top', Command.ancestor depth node = some top' ∧ top'.Parent = none ∧
      (parseCompleteCommand node []).length = depth) := by
  refine ⟨by simpa using ancestor_depth cmd [] d top hreach htop, fun depth => ?_⟩
  refine ⟨chainOfDepth depth, .root "kafkactl" [], chainOfDepth_ancestor depth, rfl, ?_⟩
  simpa using ancestor_depth (chainOfDepth depth) [] depth _ (chainOfDepth_ancestor depth) rfl

/-- Witness of `parseCompleteCommand_depth` on the sample command, two links
below its root. -/
theorem parseCompleteCommand_depth_witness :
    (parseCompleteCommand sampleCommand []).length = 2 :=
  (parseCompleteCommand_depth sampleCommand 2 (.root "kafkactl" []) rfl rfl).1

/-! ### Dispatch: the entry points -/

/-- C11: `TryRun` returns false exactly when context resolution fails or the
resolved context is not Kubernetes-enabled, and then it has made no executor
call and reported no failure; when the context resolves and is enabled it
returns true, its executor calls and receiver are those of `Run` on the
resolved context, and it reports the error of `Run` when there is one and
nothing otherwise. -/
theorem TryRun_probe (exec : Executor) (resolved : Resolution) (operation : Operation)
    (cmd : Command) (args : List String) :
    (( Operation.TryRun exec resolved operation cmd args).handled = false ↔
      (resolved.2 ≠ none ∨ resolved.1.Kubernetes.Enabled = false)) ∧
    (( Operation.TryRun exec resolved operation cmd args).handled = false →
      ( Operation.TryRun exec resolved operation cmd args).calls = [] ∧
      ( Operation.TryRun exec resolved operation cmd args).reported = []) ∧
    (resolved.2 = none → resolved.1.Kubernetes.Enabled = true →
      ( Operation.TryRun exec resolved operation cmd args).handled = true ∧
      ( Operation.TryRun exec resolved operation cmd args).calls
        = ( Operation.Run exec ⟨resolved.1⟩ cmd args).calls ∧
      ( Operation.TryRun exec resolved operation cmd args).operation
        = ( Operation.Run exec ⟨resolved.1⟩ cmd args).operation ∧
      (∀ err, ( Operation.Run exec ⟨resolved.1⟩ cmd args).err = some err →
        ( Operation.TryRun exec resolved operation cmd args).reported = [err]) ∧
      (( Operation.Run exec ⟨resolved.1⟩ cmd args).err = none →
        ( Operation.TryRun exec resolved operation cmd args).reported = [])) := by
  obtain ⟨context, rerr⟩ := resolved
  cases rerr with
  | some e => simp [Operation.TryRun]
  | none =>
    cases hE : context.Kubernetes.Enabled with
    | false => simp [Operation.TryRun, hE]
    | true =>
      cases hrun : ( Operation.Run exec ⟨context⟩ cmd args).err with
      | some e => simp [Operation.TryRun, hE, hrun, outputFail]
      | none => simp [Operation.TryRun, hE, hrun]

/-- C12: when the context resolves and passes validation `Attach` makes exactly
one executor call, image `ubuntu`, entry point `bash`, no arguments, the
environment of the resolved context, and returns what the call returns; when
resolution fails, or validation fails (as it does for an enabled context with
an empty kubeContext or namespace), it returns that error and makes no call. -/
theorem Attach_dispatch (exec : Executor) (resolved : Resolution) (operation : Operation) :
    (resolved.2 = none → ( Operation.initialize ⟨resolved.1⟩).2 = none →
      Operation.Attach exec resolved operation =
        ⟨⟨resolved.1⟩, [⟨"ubuntu", "bash", [], parsePodEnvironment resolved.1⟩],
          exec resolved.1 ⟨"ubuntu", "bash", [], parsePodEnvironment resolved.1⟩⟩) ∧
    (∀ err, resolved.2 = some err →
      Operation.Attach exec resolved operation = ⟨⟨resolved.1⟩, [], some err⟩) ∧
    (∀ err, resolved.2 = none → ( Operation.initialize ⟨resolved.1⟩).2 = some err →
      Operation.Attach exec resolved operation = ⟨⟨resolved.1⟩, [], some err⟩) ∧
    (resolved.2 = none → resolved.1.Kubernetes.Enabled = true →
      (resolved.1.Kubernetes.KubeContext = "" ∨ resolved.1.Kubernetes.Namespace = "") →
      ( Operation.Attach exec resolved operation).err ≠ none ∧
      ( Operation.Attach exec resolved operation).calls = []) := by
  obtain ⟨context, rerr⟩ := resolved
  have hsplit : ∀ r : Option GoError, ( Operation.initialize ⟨context⟩).2 = r →
      Operation.initialize ⟨context⟩ = (⟨context⟩, r) :=
    fun r h => Prod.ext (initialize_receiver ⟨context⟩) h
  refine ⟨?_, ?_, ?_, ?_⟩
  · intro hr hi
    simp only at hr hi
    subst hr
    simp only [Operation.Attach]
    rw [hsplit none hi]
  · intro err hr
    simp only at hr
    subst hr
    simp [Operation.Attach]
  · intro err hr hi
    simp only at hr hi
    subst hr
    simp only [Operation.Attach]
    rw [hsplit (some err) hi]
  · intro hr hE hbad
    simp only at hr hE hbad
    subst hr
    have hi : ( Operation.initialize ⟨context⟩).2 ≠ none := by
      rcases hbad with h | h
      · simp [ Operation.initialize, hE, h]
      · by_cases hk : context.Kubernetes.KubeContext = ""
        · simp [ Operation.initialize, hE, hk]
        · simp [ Operation.initialize, hE, hk, h]
    obtain ⟨e, he⟩ := Option.ne_none_iff_exists'.1 hi
    simp only [Operation.Attach]
    rw [hsplit (some e) he]
    simp



/-- Witness of `TryRun_probe`: a context that is not enabled, and an enabled
context with a failing executor. -/
theorem TryRun_probe_witness :
    (( Operation.TryRun failingExecutor
        ({ sampleContext with Kubernetes := ⟨false, "kind-dev", "kafka"⟩ }, none)
        ⟨sampleContext⟩ sampleCommand ["my-topic"]).calls = [] ∧
      ( Operation.TryRun failingExecutor
        ({ sampleContext with Kubernetes := ⟨false, "kind-dev", "kafka"⟩ }, none)
        ⟨sampleContext⟩ sampleCommand ["my-topic"]).reported = []) ∧
    ( Operation.TryRun failingExecutor (sampleContext, none) ⟨sampleContext⟩ sampleCommand
        ["my-topic"]).reported = [.foreign "pod failed"] :=
  ⟨(TryRun_probe failingExecutor
      ({ sampleContext with Kubernetes := ⟨false, "kind-dev", "kafka"⟩ }, none)
      ⟨sampleContext⟩ sampleCommand ["my-topic"]).2.1
      ((TryRun_probe failingExecutor
        ({ sampleContext with Kubernetes := ⟨false, "kind-dev", "kafka"⟩ }, none)
        ⟨sampleContext⟩ sampleCommand ["my-topic"]).1.2 (Or.inr rfl)),
   ((TryRun_probe failingExecutor (sampleContext, none) ⟨sampleContext⟩ sampleCommand
      ["my-topic"]).2.2 rfl rfl).2.2.2.1 (.foreign "pod failed") (by decide)⟩

/-- Witness of `Attach_dispatch`: a valid context, a failed resolution, a context
without namespace and a context without kubeContext. -/
theorem Attach_dispatch_witness :
    Operation.Attach failingExecutor (sampleContext, none) ⟨sampleContext⟩ =
      ⟨⟨sampleContext⟩,
        [⟨"ubuntu", "bash", [],
          ["BROKERS=b1:9092 b2:9092", "TLS_ENABLED=true", "TLS_INSECURE=true"]⟩],
        some (.foreign "pod failed")⟩ ∧
    Operation.Attach failingExecutor (sampleContext, some (.foreign "no config"))
        ⟨sampleContext⟩ = ⟨⟨sampleContext⟩, [], some (.foreign "no config")⟩ ∧
    Operation.Attach failingExecutor
        ({ sampleContext with Kubernetes := ⟨true, "kind-dev", ""⟩ }, none) ⟨sampleContext⟩
      = ⟨⟨{ sampleContext with Kubernetes := ⟨true, "kind-dev", ""⟩ }⟩, [], some (.errorf
          "context has no kubernetes namespace set: contexts.dev.kubernetes.namespace")⟩ ∧
    ( Operation.Attach failingExecutor
        ({ sampleContext with Kubernetes := ⟨true, "", "kafka"⟩ }, none) ⟨sampleContext⟩).calls
      = [] :=
  ⟨Eq.trans ((Attach_dispatch failingExecutor (sampleContext, none) ⟨sampleContext⟩).1 rfl
      (by decide)) (by decide),
   (Attach_dispatch failingExecutor (sampleContext, some (.foreign "no config"))
      ⟨sampleContext⟩).2.1 _ rfl,
   (Attach_dispatch failingExecutor
      ({ sampleContext with Kubernetes := ⟨true, "kind-dev", ""⟩ }, none) ⟨sampleContext⟩).2.2.1
      _ rfl (by decide),
   ((Attach_dispatch failingExecutor
      ({ sampleContext with Kubernetes := ⟨true, "", "kafka"⟩ }, none) ⟨sampleContext⟩).2.2.2
      rfl rfl (Or.inl rfl)).2⟩


end K8s
